import Mathlib

/-!
# ChaCha reference model (`gen_chacha_testvectors.c`)

A shallow embedding of the cipher core of `gen_chacha_testvectors.c`:
the macros `ROTATE`, `XOR`, `PLUS`, `PLUSONE`, `U32TO8_LITTLE`, `U8TO32_LITTLE`,
`QUARTERROUND`, the constants `SIGMA` and `TAU`, and the functions
`doublerounds`, `init`, `next` and `init_ctx`.

Conventions.
* A `uint32_t` or `uint8_t` value is a `Nat`; every operation that can overflow
  reduces explicitly modulo `2^32`.  That a stored value is in range is the
  predicate `Words` (resp. `Bytes`) and is assumed only where it is needed.
* A C array `T a[n]` is a function `Fin n → Nat`; the assignment `a[i] = v`
  is `Function.update a i v`.
* A function that writes through a pointer returns the new contents.
-/

namespace ChaCha

/-! ## Types -/

/-- The chacha state context: `uint32_t state[16]; uint8_t rounds;`. -/
structure chacha_ctx where
  state : Fin 16 → Nat
  rounds : Nat

/-- Every cell of the array holds a 32-bit value. -/
def Words {n : Nat} (x : Fin n → Nat) : Prop := ∀ i, x i < 2 ^ 32

/-- Every cell of the array holds an 8-bit value. -/
def Bytes {n : Nat} (p : Fin n → Nat) : Prop := ∀ i, p i < 2 ^ 8

/-! ## Macros -/

/-- `#define ROTATE(v,c) ((uint32_t)((v) << (c)) | ((v) >> (32 - (c))))`. -/
def ROTATE (v c : Nat) : Nat := ((v <<< c) % 2 ^ 32) ||| (v >>> (32 - c))

/-- `#define XOR(v,w) ((v) ^ (w))`. -/
def XOR (v w : Nat) : Nat := v ^^^ w

/-- `#define PLUS(v,w) ((uint32_t)((v) + (w)))`. -/
def PLUS (v w : Nat) : Nat := (v + w) % 2 ^ 32

/-- `#define PLUSONE(v) (PLUS((v), 1))`. -/
def PLUSONE (v : Nat) : Nat := PLUS v 1

/-- `#define U32TO8_LITTLE(p, v) (((uint32_t*)(p))[0] = v)` with `p = output + off`:
on the little endian machine the source assumes, the store of the word `v`
writes its four bytes, least significant first, at `off .. off + 3`. -/
def U32TO8_LITTLE {n : Nat} (output : Fin n → Nat) (off : Nat) (h : off + 3 < n) (v : Nat) :
    Fin n → Nat :=
  let output := Function.update output ⟨off, by omega⟩ (v % 2 ^ 8)
  let output := Function.update output ⟨off + 1, by omega⟩ ((v >>> 8) % 2 ^ 8)
  let output := Function.update output ⟨off + 2, by omega⟩ ((v >>> 16) % 2 ^ 8)
  let output := Function.update output ⟨off + 3, h⟩ ((v >>> 24) % 2 ^ 8)
  output

/-- `#define U8TO32_LITTLE(p) (((uint32_t*)(p))[0])` with `p = base + off`:
on the little endian machine the source assumes, the load reads the four bytes
at `off .. off + 3` as one word, least significant byte first. -/
def U8TO32_LITTLE {n : Nat} (base : Fin n → Nat) (off : Nat) (h : off + 3 < n) : Nat :=
  base ⟨off, by omega⟩ + base ⟨off + 1, by omega⟩ * 2 ^ 8
    + base ⟨off + 2, by omega⟩ * 2 ^ 16 + base ⟨off + 3, h⟩ * 2 ^ 24

/-- The macro `QUARTERROUND(a, b, c, d)`: eight assignments to the array `x`, in
the order of the source. -/
def QUARTERROUND (a b c d : Fin 16) (x : Fin 16 → Nat) : Fin 16 → Nat :=
  let x := Function.update x a (PLUS (x a) (x b))
  let x := Function.update x d (ROTATE (XOR (x d) (x a)) 16)
  let x := Function.update x c (PLUS (x c) (x d))
  let x := Function.update x b (ROTATE (XOR (x b) (x c)) 12)
  let x := Function.update x a (PLUS (x a) (x b))
  let x := Function.update x d (ROTATE (XOR (x d) (x a)) 8)
  let x := Function.update x c (PLUS (x c) (x d))
  let x := Function.update x b (ROTATE (XOR (x b) (x c)) 7)
  x

/-- The four values the eight assignments of `QUARTERROUND` leave in the slots
`a b c d`, from the four values `p q r s` the slots held. -/
def QUARTERROUND_values (p q r s : Nat) : Nat × Nat × Nat × Nat :=
  let a1 := PLUS p q
  let d1 := ROTATE (XOR s a1) 16
  let c1 := PLUS r d1
  let b1 := ROTATE (XOR q c1) 12
  let a2 := PLUS a1 b1
  let d2 := ROTATE (XOR d1 a2) 8
  let c2 := PLUS c1 d2
  let b2 := ROTATE (XOR b1 c2) 7
  (a2, b2, c2, d2)

/-! ## Constants -/

/-- The bytes of a C string literal used to initialise a `uint8_t[16]`. -/
def cstring16 (s : String) : Fin 16 → Nat := fun i => (s.toList.getD i.val (Char.ofNat 0)).toNat

/-- `static const uint8_t SIGMA[16] = "expand 32-byte k";`. -/
def SIGMA : Fin 16 → Nat := cstring16 "expand 32-byte k"

/-- `static const uint8_t TAU[16] = "expand 16-byte k";`. -/
def TAU : Fin 16 → Nat := cstring16 "expand 16-byte k"

/-! ## Loops -/

/-- The counted loop `for (i = 0; i < n; ++i) body`, the body reading `i` as an
index below `n`. -/
def forLoop {σ : Type} (n : Nat) (body : Fin n → σ → σ) (s : σ) : σ :=
  (List.finRange n).foldl (fun s i => body i s) s

/-- The body of the round loop of `doublerounds`: the four column quarter
rounds, then the four diagonal ones. -/
def roundsBody (x : Fin 16 → Nat) : Fin 16 → Nat :=
  let x := QUARTERROUND 0 4 8 12 x
  let x := QUARTERROUND 1 5 9 13 x
  let x := QUARTERROUND 2 6 10 14 x
  let x := QUARTERROUND 3 7 11 15 x
  let x := QUARTERROUND 0 5 10 15 x
  let x := QUARTERROUND 1 6 11 12 x
  let x := QUARTERROUND 2 7 8 13 x
  let x := QUARTERROUND 3 4 9 14 x
  x

/-- The loop `for (i = rounds ; i > 0 ; i -= 2) body` of `doublerounds`, from
the current value of the signed counter `i` (an `int32_t`, here between `-1` and
`255`, so that it never overflows).  The first argument bounds the number of
iterations; `roundsLoop_fuel` shows that with the bound `doublerounds` passes the
loop always runs until its own test `i > 0` fails. -/
def roundsLoop : Nat → Int → (Fin 16 → Nat) → (Fin 16 → Nat)
  | 0, _, x => x
  | fuel + 1, i, x => if i > 0 then roundsLoop fuel (i - 2) (roundsBody x) else x

/-- The index quadruples of the four column quarter rounds of `doublerounds`, in
the order of the source. -/
def columnQuads : List (Fin 16 × Fin 16 × Fin 16 × Fin 16) :=
  [(0, 4, 8, 12), (1, 5, 9, 13), (2, 6, 10, 14), (3, 7, 11, 15)]

/-- The index quadruples of the four diagonal quarter rounds of `doublerounds`,
in the order of the source. -/
def diagonalQuads : List (Fin 16 × Fin 16 × Fin 16 × Fin 16) :=
  [(0, 5, 10, 15), (1, 6, 11, 12), (2, 7, 8, 13), (3, 4, 9, 14)]

/-- The four indices of a quadruple. -/
def quadIndices (q : Fin 16 × Fin 16 × Fin 16 × Fin 16) : List (Fin 16) :=
  [q.1, q.2.1, q.2.2.1, q.2.2.2]

/-- The macro `QUARTERROUND` on each quadruple of a list, one after the other. -/
def applyQuads (l : List (Fin 16 × Fin 16 × Fin 16 × Fin 16)) (x : Fin 16 → Nat) :
    Fin 16 → Nat :=
  l.foldl (fun x q => QUARTERROUND q.1 q.2.1 q.2.2.1 q.2.2.2 x) x

/-! ## Functions -/

/-- The function `doublerounds(output, input, rounds)`; returns the contents of
`output`.  The local array `x` and the caller's `output` start from the contents
given in `x0` and `output`; every cell of both is written before it is read. -/
def doubleroundsFrom (x0 : Fin 16 → Nat) (output : Fin 64 → Nat) (input : Fin 16 → Nat)
    (rounds : Nat) : Fin 64 → Nat :=
  let x := forLoop 16 (fun i x => Function.update x i (input i)) x0
  let x := roundsLoop rounds (rounds : Int) x
  let x := forLoop 16 (fun i x => Function.update x i (PLUS (x i) (input i))) x
  let output := forLoop 16
    (fun i output => U32TO8_LITTLE output (4 * i.val) (by omega) (x i)) output
  output

/-- The function `doublerounds` called on an `output` buffer and with a local
array `x` that hold zeros on entry. -/
def doublerounds (input : Fin 16 → Nat) (rounds : Nat) : Fin 64 → Nat :=
  doubleroundsFrom (fun _ => 0) (fun _ => 0) input rounds

/-- The assignment `x->state[i] = v`. -/
def setState (x : chacha_ctx) (i : Fin 16) (v : Nat) : chacha_ctx :=
  { x with state := Function.update x.state i v }

/-- The function `init(x, key, keylen, iv)`; returns the context it leaves.  The
callers pass a 32 byte `key` array for both key lengths and an 8 byte `iv`. -/
def init (x : chacha_ctx) (key : Fin 32 → Nat) (keylen : Nat) (iv : Fin 8 → Nat) : chacha_ctx :=
  let x :=
    if keylen = 256 then
      let x := setState x 0 (U8TO32_LITTLE SIGMA 0 (by decide))
      let x := setState x 1 (U8TO32_LITTLE SIGMA 4 (by decide))
      let x := setState x 2 (U8TO32_LITTLE SIGMA 8 (by decide))
      let x := setState x 3 (U8TO32_LITTLE SIGMA 12 (by decide))
      let x := setState x 4 (U8TO32_LITTLE key 0 (by decide))
      let x := setState x 5 (U8TO32_LITTLE key 4 (by decide))
      let x := setState x 6 (U8TO32_LITTLE key 8 (by decide))
      let x := setState x 7 (U8TO32_LITTLE key 12 (by decide))
      let x := setState x 8 (U8TO32_LITTLE key 16 (by decide))
      let x := setState x 9 (U8TO32_LITTLE key 20 (by decide))
      let x := setState x 10 (U8TO32_LITTLE key 24 (by decide))
      let x := setState x 11 (U8TO32_LITTLE key 28 (by decide))
      x
    else
      let x := setState x 0 (U8TO32_LITTLE TAU 0 (by decide))
      let x := setState x 1 (U8TO32_LITTLE TAU 4 (by decide))
      let x := setState x 2 (U8TO32_LITTLE TAU 8 (by decide))
      let x := setState x 3 (U8TO32_LITTLE TAU 12 (by decide))
      let x := setState x 4 (U8TO32_LITTLE key 0 (by decide))
      let x := setState x 5 (U8TO32_LITTLE key 4 (by decide))
      let x := setState x 6 (U8TO32_LITTLE key 8 (by decide))
      let x := setState x 7 (U8TO32_LITTLE key 12 (by decide))
      let x := setState x 8 (U8TO32_LITTLE key 0 (by decide))
      let x := setState x 9 (U8TO32_LITTLE key 4 (by decide))
      let x := setState x 10 (U8TO32_LITTLE key 8 (by decide))
      let x := setState x 11 (U8TO32_LITTLE key 12 (by decide))
      x
  let x := setState x 12 0
  let x := setState x 13 0
  let x := setState x 14 (U8TO32_LITTLE iv 0 (by decide))
  let x := setState x 15 (U8TO32_LITTLE iv 4 (by decide))
  x

/-- The function `next(ctx, m, c)` from the contents `c0` of the buffer `c` on
entry; returns the context it leaves and the contents of `c`.  The local
buffer `x` is the one `doublerounds` fills. -/
def nextFrom (c0 : Fin 64 → Nat) (ctx : chacha_ctx) (m : Fin 64 → Nat) :
    chacha_ctx × (Fin 64 → Nat) :=
  let x := doublerounds ctx.state ctx.rounds
  let ctx := setState ctx 12 (PLUSONE (ctx.state 12))
  let ctx := if ctx.state 12 = 0 then setState ctx 13 (PLUSONE (ctx.state 13)) else ctx
  let c := forLoop 64 (fun i c => Function.update c i (m i ^^^ x i)) c0
  (ctx, c)

/-- The function `next(ctx, m, c)` on a result buffer `c` that holds zeros on
entry, as `result0` and `result1` of `gen_testvectors` do. -/
def next (ctx : chacha_ctx) (m : Fin 64 → Nat) : chacha_ctx × (Fin 64 → Nat) :=
  nextFrom (fun _ => 0) ctx m

/-- The function `init_ctx(ctx, rounds)`; returns the context it leaves. -/
def init_ctx (ctx : chacha_ctx) (rounds : Nat) : chacha_ctx :=
  let ctx := forLoop 16 (fun i ctx => setState ctx i 0) ctx
  { ctx with rounds := rounds }

/-! ## The construction as the specification words it -/

/-- Addition modulo `2^32`. -/
def add32 (v w : Nat) : Nat := (v + w) % 2 ^ 32

/-- Left rotation of the 32-bit word `v` by `n` bit positions: the low `32 - n`
bits move up by `n`, the high `n` bits come back in at the bottom. -/
def rotl32 (v n : Nat) : Nat := (v % 2 ^ (32 - n)) * 2 ^ n + v / 2 ^ (32 - n)

/-- The quarter round of the specification on four words. -/
def quarterRound (q : Nat × Nat × Nat × Nat) : Nat × Nat × Nat × Nat :=
  let (a, b, c, d) := q
  let a := add32 a b
  let d := d ^^^ a
  let d := rotl32 d 16
  let c := add32 c d
  let b := b ^^^ c
  let b := rotl32 b 12
  let a := add32 a b
  let d := d ^^^ a
  let d := rotl32 d 8
  let c := add32 c d
  let b := b ^^^ c
  let b := rotl32 b 7
  (a, b, c, d)

/-- The quarter round of the specification applied to the slots `a b c d` of a
working array: the four slots receive the four results, the others stay. -/
def quarterRoundAt (a b c d : Fin 16) (w : Fin 16 → Nat) : Fin 16 → Nat :=
  let q := quarterRound (w a, w b, w c, w d)
  fun i =>
    if i = a then q.1 else if i = b then q.2.1 else if i = c then q.2.2.1
    else if i = d then q.2.2.2 else w i

/-- One column pass of the specification. -/
def columnPass (w : Fin 16 → Nat) : Fin 16 → Nat :=
  quarterRoundAt 3 7 11 15 (quarterRoundAt 2 6 10 14
    (quarterRoundAt 1 5 9 13 (quarterRoundAt 0 4 8 12 w)))

/-- One diagonal pass of the specification. -/
def diagonalPass (w : Fin 16 → Nat) : Fin 16 → Nat :=
  quarterRoundAt 3 4 9 14 (quarterRoundAt 2 7 8 13
    (quarterRoundAt 1 6 11 12 (quarterRoundAt 0 5 10 15 w)))

/-- One double round of the specification: a column pass, then a diagonal pass. -/
def doubleRound (w : Fin 16 → Nat) : Fin 16 → Nat := diagonalPass (columnPass w)

/-- The feed-forward of the specification: each working word plus the original
word, modulo `2^32`. -/
def feedForward (w input : Fin 16 → Nat) : Fin 16 → Nat := fun i => add32 (w i) (input i)

/-- Little-endian serialisation of 16 words to 64 bytes: byte `4 i + j` is
byte `j` of word `i`, the least significant byte being byte `0`. -/
def serialize (w : Fin 16 → Nat) : Fin 64 → Nat :=
  fun k => (w ⟨k.val / 4, by omega⟩ / 256 ^ (k.val % 4)) % 256

/-- The permutation core of the specification with `R` rounds. -/
def referenceBlock (input : Fin 16 → Nat) (R : Nat) : Fin 64 → Nat :=
  serialize (feedForward (doubleRound^[R / 2] input) input)

/-- The word whose bytes, least significant first, are `b0 b1 b2 b3`. -/
def leWord (b0 b1 b2 b3 : Nat) : Nat := b0 + b1 * 2 ^ 8 + b2 * 2 ^ 16 + b3 * 2 ^ 24

/-- The context after `n` calls of `next`, call `k` (from `0`) being given the
data block `data k`. -/
def nextIter (ctx : chacha_ctx) (data : Nat → Fin 64 → Nat) : Nat → chacha_ctx
  | 0 => ctx
  | n + 1 => (next (nextIter ctx data n) (data n)).1

/-- Subtraction modulo `2^32`. -/
def sub32 (v w : Nat) : Nat := (v + (2 ^ 32 - w % 2 ^ 32)) % 2 ^ 32

/-- Right rotation of the 32-bit word `v` by `n` bit positions: the high
`32 - n` bits move down by `n`, the low `n` bits come back in at the top. -/
def rotr32 (v n : Nat) : Nat := v / 2 ^ n + (v % 2 ^ n) * 2 ^ (32 - n)

/-- The inverse quarter round: the four steps of the quarter round undone in
reverse order, with right rotation, XOR and subtraction modulo `2^32`. -/
def invQuarterRound (q : Nat × Nat × Nat × Nat) : Nat × Nat × Nat × Nat :=
  let (a, b, c, d) := q
  let b := rotr32 b 7
  let b := b ^^^ c
  let c := sub32 c d
  let d := rotr32 d 8
  let d := d ^^^ a
  let a := sub32 a b
  let b := rotr32 b 12
  let b := b ^^^ c
  let c := sub32 c d
  let d := rotr32 d 16
  let d := d ^^^ a
  let a := sub32 a b
  (a, b, c, d)

/-- The inverse quarter round applied to the slots `a b c d` of a working array. -/
def invQuarterRoundAt (a b c d : Fin 16) (w : Fin 16 → Nat) : Fin 16 → Nat :=
  let q := invQuarterRound (w a, w b, w c, w d)
  fun i =>
    if i = a then q.1 else if i = b then q.2.1 else if i = c then q.2.2.1
    else if i = d then q.2.2.2 else w i

/-- The column pass undone: the inverse quarter rounds in reverse order. -/
def invColumnPass (w : Fin 16 → Nat) : Fin 16 → Nat :=
  invQuarterRoundAt 0 4 8 12 (invQuarterRoundAt 1 5 9 13
    (invQuarterRoundAt 2 6 10 14 (invQuarterRoundAt 3 7 11 15 w)))

/-- The diagonal pass undone: the inverse quarter rounds in reverse order. -/
def invDiagonalPass (w : Fin 16 → Nat) : Fin 16 → Nat :=
  invQuarterRoundAt 0 5 10 15 (invQuarterRoundAt 1 6 11 12
    (invQuarterRoundAt 2 7 8 13 (invQuarterRoundAt 3 4 9 14 w)))

/-- The double round undone: the diagonal pass undone, then the column pass undone. -/
def invDoubleRound (w : Fin 16 → Nat) : Fin 16 → Nat := invColumnPass (invDiagonalPass w)

/-! ## Sample inputs -/

/-- A sample 16-word array: word `i` holds `0x01020304 * (i + 1)`. -/
def sampleWords : Fin 16 → Nat := fun i => 0x01020304 * (i.val + 1)

/-- A sample 16-word array holding the four words of the quarter round test
vector in its first column. -/
def sampleColumn : Fin 16 → Nat := fun i =>
  if i = 0 then 0x11111111 else if i = 4 then 0x01020304
  else if i = 8 then 0x9b8d6f43 else if i = 12 then 0x01234567 else 0

/-- The all-zero key of test case 1. -/
def zeroKey : Fin 32 → Nat := fun _ => 0

/-- The all-zero IV of test case 1. -/
def zeroIv : Fin 8 → Nat := fun _ => 0

/-- The all-zero data block of `gen_testvectors`. -/
def zeroBlock : Fin 64 → Nat := fun _ => 0

/-- The key of test case 7: `00 11 22 .. ff ff ee .. 00`. -/
def sampleKey : Fin 32 → Nat := fun i =>
  if i.val < 16 then 0x11 * i.val else 0x11 * (31 - i.val)

/-- The key of test case 7 with its upper 16 bytes cleared. -/
def sampleKeyLow : Fin 32 → Nat := fun i =>
  if i.val < 16 then 0x11 * i.val else 0

/-- The IV of test case 7: `0f 1e 2d 3c 4b 5a 69 78`. -/
def sampleIv : Fin 8 → Nat := fun i => 0x0f * (i.val + 1)

/-- A context whose low counter word is about to wrap. -/
def sampleCtx : chacha_ctx :=
  { state := fun i => if i = 12 then 0xFFFFFFFF else if i = 13 then 5 else 0, rounds := 8 }

/-- A context whose 64 bit counter holds its last value `2^64 - 1`. -/
def sampleCtxLast : chacha_ctx :=
  { state := fun i => if i = 12 then 0xFFFFFFFF else if i = 13 then 0xFFFFFFFF else i.val,
    rounds := 8 }

/-! ## Lemmas -/

theorem rotl32_lt (v n : Nat) (hv : v < 2 ^ 32) (hn : n ≤ 32) : rotl32 v n < 2 ^ 32 := by
  unfold rotl32
  have h1 : v % 2 ^ (32 - n) < 2 ^ (32 - n) := Nat.mod_lt _ (by positivity)
  have h2 : v / 2 ^ (32 - n) < 2 ^ n := by
    rw [Nat.div_lt_iff_lt_mul (by positivity), ← pow_add]
    have : n + (32 - n) = 32 := by omega
    rw [this]; exact hv
  have h3 : 2 ^ (32 - n) * 2 ^ n = 2 ^ 32 := by
    rw [← pow_add]; congr 1; omega
  calc v % 2 ^ (32 - n) * 2 ^ n + v / 2 ^ (32 - n)
      < v % 2 ^ (32 - n) * 2 ^ n + 2 ^ n := by omega
    _ = (v % 2 ^ (32 - n) + 1) * 2 ^ n := by ring
    _ ≤ 2 ^ (32 - n) * 2 ^ n := Nat.mul_le_mul_right _ h1
    _ = 2 ^ 32 := h3

theorem ROTATE_eq_rotl32 (v c : Nat) (hv : v < 2 ^ 32) (hc : c ≤ 32) :
    ROTATE v c = rotl32 v c := by
  unfold ROTATE rotl32
  have h2 : v / 2 ^ (32 - c) < 2 ^ c := by
    rw [Nat.div_lt_iff_lt_mul (by positivity), ← pow_add]
    have : c + (32 - c) = 32 := by omega
    rw [this]; exact hv
  have h1 : (v <<< c) % 2 ^ 32 = 2 ^ c * (v % 2 ^ (32 - c)) := by
    rw [Nat.shiftLeft_eq, Nat.mul_comm v]
    have : (2:Nat) ^ 32 = 2 ^ c * 2 ^ (32 - c) := by
      rw [← pow_add]; congr 1; omega
    rw [this, Nat.mul_mod_mul_left]
  rw [h1, Nat.shiftRight_eq_div_pow, ← Nat.mul_add_lt_is_or h2, Nat.mul_comm]

theorem rotl32_testBit (v n i : Nat) (hv : v < 2 ^ 32) (hn : n < 32) (hi : i < 32) :
    (rotl32 v n).testBit i = v.testBit ((i + (32 - n)) % 32) := by
  rw [← ROTATE_eq_rotl32 v n hv (by omega)]
  unfold ROTATE
  rw [Nat.testBit_or, Nat.testBit_mod_two_pow, Nat.testBit_shiftLeft, Nat.testBit_shiftRight]
  by_cases h : n ≤ i
  · have e : (i + (32 - n)) % 32 = i - n := by omega
    have : v.testBit (32 - n + i) = false :=
      Nat.testBit_lt_two_pow (lt_of_lt_of_le hv (Nat.pow_le_pow_right (by decide) (by omega)))
    simp [hi, h, e, this]
  · have e : (i + (32 - n)) % 32 = 32 - n + i := by omega
    simp [hi, h, e]

theorem PLUS_lt (v w : Nat) : PLUS v w < 2 ^ 32 := Nat.mod_lt _ (by decide)

theorem XOR_lt {v w : Nat} (hv : v < 2 ^ 32) (hw : w < 2 ^ 32) : XOR v w < 2 ^ 32 :=
  Nat.xor_lt_two_pow hv hw

theorem ROTATE_lt {v c : Nat} (hv : v < 2 ^ 32) (hc : c ≤ 32) : ROTATE v c < 2 ^ 32 := by
  rw [ROTATE_eq_rotl32 v c hv hc]; exact rotl32_lt v c hv hc

/-- The macro `QUARTERROUND` on four distinct slots, read off cell by cell. -/
theorem QUARTERROUND_apply (a b c d : Fin 16) (x : Fin 16 → Nat)
    (hab : a ≠ b) (hac : a ≠ c) (had : a ≠ d) (hbc : b ≠ c) (hbd : b ≠ d) (hcd : c ≠ d)
    (i : Fin 16) :
    QUARTERROUND a b c d x i =
      (let a1 := PLUS (x a) (x b)
       let d1 := ROTATE (XOR (x d) a1) 16
       let c1 := PLUS (x c) d1
       let b1 := ROTATE (XOR (x b) c1) 12
       let a2 := PLUS a1 b1
       let d2 := ROTATE (XOR d1 a2) 8
       let c2 := PLUS c1 d2
       let b2 := ROTATE (XOR b1 c2) 7
       if i = a then a2 else if i = b then b2 else if i = c then c2
       else if i = d then d2 else x i) := by
  have hba := hab.symm
  have hca := hac.symm
  have hda := had.symm
  have hcb := hbc.symm
  have hdb := hbd.symm
  have hdc := hcd.symm
  simp only [QUARTERROUND, Function.update_apply]
  by_cases ha : i = a
  · subst ha; simp [*]
  by_cases hb : i = b
  · subst hb; simp [*]
  by_cases hc : i = c
  · subst hc; simp [*]
  by_cases hd : i = d
  · subst hd; simp [*]
  simp [*]

theorem QUARTERROUND_eq_quarterRoundAt (a b c d : Fin 16) (x : Fin 16 → Nat) (hx : Words x)
    (hab : a ≠ b) (hac : a ≠ c) (had : a ≠ d) (hbc : b ≠ c) (hbd : b ≠ d) (hcd : c ≠ d) :
    QUARTERROUND a b c d x = quarterRoundAt a b c d x := by
  funext i
  rw [QUARTERROUND_apply a b c d x hab hac had hbc hbd hcd i]
  have h1 := PLUS_lt (x a) (x b)
  have e1 := ROTATE_eq_rotl32 _ 16 (XOR_lt (hx d) h1) (by decide)
  have l1 := ROTATE_lt (XOR_lt (hx d) h1) (show 16 ≤ 32 by decide)
  have h2 := PLUS_lt (x c) (ROTATE (XOR (x d) (PLUS (x a) (x b))) 16)
  have e2 := ROTATE_eq_rotl32 _ 12 (XOR_lt (hx b) h2) (by decide)
  have l2 := ROTATE_lt (XOR_lt (hx b) h2) (show 12 ≤ 32 by decide)
  have h3 := PLUS_lt (PLUS (x a) (x b))
    (ROTATE (XOR (x b) (PLUS (x c) (ROTATE (XOR (x d) (PLUS (x a) (x b))) 16))) 12)
  have e3 := ROTATE_eq_rotl32 _ 8 (XOR_lt l1 h3) (by decide)
  have l3 := ROTATE_lt (XOR_lt l1 h3) (show 8 ≤ 32 by decide)
  have h4 := PLUS_lt (PLUS (x c) (ROTATE (XOR (x d) (PLUS (x a) (x b))) 16))
    (ROTATE (XOR (ROTATE (XOR (x d) (PLUS (x a) (x b))) 16)
      (PLUS (PLUS (x a) (x b))
        (ROTATE (XOR (x b) (PLUS (x c) (ROTATE (XOR (x d) (PLUS (x a) (x b))) 16))) 12))) 8)
  have e4 := ROTATE_eq_rotl32 _ 7 (XOR_lt l2 h4) (by decide)
  simp only [e1] at e2 e3 e4 ⊢
  simp only [e2] at e3 e4 ⊢
  simp only [e3] at e4 ⊢
  simp only [e4]
  simp only [quarterRoundAt, quarterRound, PLUS, XOR, add32]

theorem add32_lt (v w : Nat) : add32 v w < 2 ^ 32 := Nat.mod_lt _ (by decide)

theorem quarterRound_lt (a b c d : Nat) (hb : b < 2 ^ 32) (hd : d < 2 ^ 32) :
    (quarterRound (a, b, c, d)).1 < 2 ^ 32 ∧ (quarterRound (a, b, c, d)).2.1 < 2 ^ 32 ∧
    (quarterRound (a, b, c, d)).2.2.1 < 2 ^ 32 ∧ (quarterRound (a, b, c, d)).2.2.2 < 2 ^ 32 := by
  simp only [quarterRound]
  have h1 := add32_lt a b
  have l1 := rotl32_lt _ 16 (Nat.xor_lt_two_pow hd h1) (by decide)
  have h2 := add32_lt c (rotl32 (d ^^^ add32 a b) 16)
  have l2 := rotl32_lt _ 12 (Nat.xor_lt_two_pow hb h2) (by decide)
  have h3 := add32_lt (add32 a b) (rotl32 (b ^^^ add32 c (rotl32 (d ^^^ add32 a b) 16)) 12)
  have l3 := rotl32_lt _ 8 (Nat.xor_lt_two_pow l1 h3) (by decide)
  have h4 := add32_lt (add32 c (rotl32 (d ^^^ add32 a b) 16))
    (rotl32 (rotl32 (d ^^^ add32 a b) 16 ^^^
      add32 (add32 a b) (rotl32 (b ^^^ add32 c (rotl32 (d ^^^ add32 a b) 16)) 12)) 8)
  have l4 := rotl32_lt _ 7 (Nat.xor_lt_two_pow l2 h4) (by decide)
  exact ⟨h3, l4, h4, l3⟩

theorem Words_quarterRoundAt (a b c d : Fin 16) (w : Fin 16 → Nat) (hw : Words w) :
    Words (quarterRoundAt a b c d w) := by
  intro i
  obtain ⟨h1, h2, h3, h4⟩ := quarterRound_lt (w a) (w b) (w c) (w d) (hw b) (hw d)
  simp only [quarterRoundAt]
  split_ifs
  · exact h1
  · exact h2
  · exact h3
  · exact h4
  · exact hw i

theorem Words_columnPass (w : Fin 16 → Nat) (hw : Words w) : Words (columnPass w) :=
  Words_quarterRoundAt _ _ _ _ _ (Words_quarterRoundAt _ _ _ _ _
    (Words_quarterRoundAt _ _ _ _ _ (Words_quarterRoundAt _ _ _ _ _ hw)))

theorem Words_diagonalPass (w : Fin 16 → Nat) (hw : Words w) : Words (diagonalPass w) :=
  Words_quarterRoundAt _ _ _ _ _ (Words_quarterRoundAt _ _ _ _ _
    (Words_quarterRoundAt _ _ _ _ _ (Words_quarterRoundAt _ _ _ _ _ hw)))

theorem Words_doubleRound (w : Fin 16 → Nat) (hw : Words w) : Words (doubleRound w) :=
  Words_diagonalPass _ (Words_columnPass _ hw)

theorem Words_iterate_doubleRound (k : Nat) (w : Fin 16 → Nat) (hw : Words w) :
    Words (doubleRound^[k] w) := by
  induction k generalizing w with
  | zero => exact hw
  | succ k ih => rw [Function.iterate_succ_apply]; exact ih _ (Words_doubleRound _ hw)

/-- The body of the round loop is one double round of the specification. -/
theorem roundsBody_eq_doubleRound (x : Fin 16 → Nat) (hx : Words x) :
    roundsBody x = doubleRound x := by
  have q : ∀ (a b c d : Fin 16) (y : Fin 16 → Nat), Words y →
      a ≠ b → a ≠ c → a ≠ d → b ≠ c → b ≠ d → c ≠ d →
      QUARTERROUND a b c d y = quarterRoundAt a b c d y ∧ Words (quarterRoundAt a b c d y) :=
    fun a b c d y hy hab hac had hbc hbd hcd =>
      ⟨QUARTERROUND_eq_quarterRoundAt a b c d y hy hab hac had hbc hbd hcd,
        Words_quarterRoundAt a b c d y hy⟩
  simp only [roundsBody, doubleRound, columnPass, diagonalPass]
  obtain ⟨e1, w1⟩ := q 0 4 8 12 x hx (by decide) (by decide) (by decide) (by decide)
    (by decide) (by decide)
  rw [e1]
  obtain ⟨e2, w2⟩ := q 1 5 9 13 _ w1 (by decide) (by decide) (by decide) (by decide)
    (by decide) (by decide)
  rw [e2]
  obtain ⟨e3, w3⟩ := q 2 6 10 14 _ w2 (by decide) (by decide) (by decide) (by decide)
    (by decide) (by decide)
  rw [e3]
  obtain ⟨e4, w4⟩ := q 3 7 11 15 _ w3 (by decide) (by decide) (by decide) (by decide)
    (by decide) (by decide)
  rw [e4]
  obtain ⟨e5, w5⟩ := q 0 5 10 15 _ w4 (by decide) (by decide) (by decide) (by decide)
    (by decide) (by decide)
  rw [e5]
  obtain ⟨e6, w6⟩ := q 1 6 11 12 _ w5 (by decide) (by decide) (by decide) (by decide)
    (by decide) (by decide)
  rw [e6]
  obtain ⟨e7, w7⟩ := q 2 7 8 13 _ w6 (by decide) (by decide) (by decide) (by decide)
    (by decide) (by decide)
  rw [e7]
  obtain ⟨e8, _⟩ := q 3 4 9 14 _ w7 (by decide) (by decide) (by decide) (by decide)
    (by decide) (by decide)
  rw [e8]

/-- The round loop started at the counter value `i ≥ -1` runs its body
`⌈i / 2⌉` times, provided the iteration bound is at least that. -/
theorem roundsLoop_fuel (fuel : Nat) (i : Nat) (x : Fin 16 → Nat) (h : (i + 1) / 2 ≤ fuel) :
    roundsLoop fuel (i : Int) x = roundsBody^[(i + 1) / 2] x := by
  induction fuel generalizing i x with
  | zero =>
    have : (i + 1) / 2 = 0 := by omega
    simp [roundsLoop, this]
  | succ fuel ih =>
    rcases i with _ | _ | i
    · simp [roundsLoop]
    · have : roundsLoop fuel ((1 : Int) - 2) (roundsBody x) = roundsBody x := by
        cases fuel <;> simp [roundsLoop]
      simpa [roundsLoop] using this
    · have e : (((i + 1 + 1 : Nat) : Int) - 2) = (i : Int) := by push_cast; ring
      have e2 : (i + 1 + 1 + 1) / 2 = (i + 1) / 2 + 1 := by omega
      have pos : ((i + 1 + 1 : Nat) : Int) > 0 := by positivity
      rw [roundsLoop, if_pos pos, e, ih i (roundsBody x) (by omega), e2,
        Function.iterate_succ_apply]

theorem roundsBody_iterate_eq (k : Nat) (x : Fin 16 → Nat) (hx : Words x) :
    roundsBody^[k] x = doubleRound^[k] x := by
  induction k generalizing x with
  | zero => rfl
  | succ k ih =>
    rw [Function.iterate_succ_apply, Function.iterate_succ_apply,
      roundsBody_eq_doubleRound x hx, ih _ (Words_doubleRound x hx)]

/-- A loop over distinct indices whose body rewrites cell `i` from its own old
value leaves `f j (s j)` in every visited cell `j`, and the other cells as they were. -/
theorem foldl_update_apply {n : Nat} (f : Fin n → Nat → Nat) (l : List (Fin n)) (hl : l.Nodup)
    (s : Fin n → Nat) (j : Fin n) :
    l.foldl (fun s i => Function.update s i (f i (s i))) s j =
      if j ∈ l then f j (s j) else s j := by
  induction l generalizing s with
  | nil => simp
  | cons i t ih =>
    rw [List.foldl_cons, ih (List.nodup_cons.mp hl).2]
    have hi : i ∉ t := (List.nodup_cons.mp hl).1
    by_cases hj : j = i
    · subst hj; simp [hi]
    · simp [hj, Function.update_noteq hj]

/-- A counted loop whose body rewrites cell `i` from its own old value. -/
theorem forLoop_update_apply {n : Nat} (f : Fin n → Nat → Nat) (s : Fin n → Nat) (j : Fin n) :
    forLoop n (fun i s => Function.update s i (f i (s i))) s j = f j (s j) := by
  unfold forLoop
  rw [foldl_update_apply f _ (List.nodup_finRange n)]
  simp

theorem U32TO8_LITTLE_apply {n : Nat} (output : Fin n → Nat) (off : Nat) (h : off + 3 < n)
    (v : Nat) (k : Fin n) :
    U32TO8_LITTLE output off h v k =
      if off ≤ k.val ∧ k.val ≤ off + 3 then (v / 256 ^ (k.val - off)) % 256 else output k := by
  simp only [U32TO8_LITTLE, Function.update_apply, Fin.ext_iff, Nat.shiftRight_eq_div_pow]
  by_cases h3 : k.val = off + 3
  · simp [h3]
  by_cases h2 : k.val = off + 2
  · simp [h2]
  by_cases h1 : k.val = off + 1
  · simp [h1]
  by_cases h0 : k.val = off
  · simp [h0]
  have : ¬ (off ≤ k.val ∧ k.val ≤ off + 3) := by omega
  simp [h3, h2, h1, h0, this]

theorem foldl_store_apply (x : Fin 16 → Nat) (l : List (Fin 16)) (hl : l.Nodup)
    (output : Fin 64 → Nat) (k : Fin 64) :
    l.foldl (fun output i => U32TO8_LITTLE output (4 * i.val) (by omega) (x i)) output k =
      if (⟨k.val / 4, by omega⟩ : Fin 16) ∈ l then serialize x k else output k := by
  induction l generalizing output with
  | nil => simp
  | cons i t ih =>
    rw [List.foldl_cons, ih (List.nodup_cons.mp hl).2]
    have hi : i ∉ t := (List.nodup_cons.mp hl).1
    by_cases hk : (⟨k.val / 4, by omega⟩ : Fin 16) = i
    · subst hk
      have e : k.val - 4 * (k.val / 4) = k.val % 4 := by omega
      have r : 4 * (k.val / 4) ≤ k.val ∧ k.val ≤ 4 * (k.val / 4) + 3 := by omega
      simp [hi, U32TO8_LITTLE_apply, serialize, e, r]
    · have r : ¬ (4 * i.val ≤ k.val ∧ k.val ≤ 4 * i.val + 3) := by
        intro hr
        apply hk
        apply Fin.ext
        show k.val / 4 = i.val
        omega
      simp [hk, U32TO8_LITTLE_apply, r]

/-- The last loop of `doublerounds` serialises the 16 words little-endian. -/
theorem forLoop_store (x : Fin 16 → Nat) (output : Fin 64 → Nat) :
    forLoop 16 (fun i output => U32TO8_LITTLE output (4 * i.val) (by omega) (x i)) output =
      serialize x := by
  funext k
  unfold forLoop
  rw [foldl_store_apply x _ (List.nodup_finRange 16)]
  simp

/-- What `doublerounds` computes, for any contents of its buffers on entry: the
round loop body iterated `⌈rounds / 2⌉` times on a copy of the input, the
feed-forward, the little-endian store. -/
theorem doubleroundsFrom_eq (x0 : Fin 16 → Nat) (output : Fin 64 → Nat) (input : Fin 16 → Nat)
    (rounds : Nat) :
    doubleroundsFrom x0 output input rounds =
      serialize (fun i => PLUS ((roundsBody^[(rounds + 1) / 2] input) i) (input i)) := by
  unfold doubleroundsFrom
  have copy : forLoop 16 (fun i x => Function.update x i (input i)) x0 = input := by
    funext j
    exact forLoop_update_apply (fun i _ => input i) x0 j
  have ff : ∀ y : Fin 16 → Nat,
      forLoop 16 (fun i x => Function.update x i (PLUS (x i) (input i))) y =
        fun i => PLUS (y i) (input i) := by
    intro y
    funext j
    exact forLoop_update_apply (fun i v => PLUS v (input i)) y j
  simp only [copy, ff, forLoop_store]
  rw [roundsLoop_fuel rounds rounds input (by omega)]

theorem doublerounds_eq (input : Fin 16 → Nat) (rounds : Nat) :
    doublerounds input rounds =
      serialize (fun i => PLUS ((roundsBody^[(rounds + 1) / 2] input) i) (input i)) :=
  doubleroundsFrom_eq _ _ input rounds

theorem doubleroundsFrom_eq_referenceBlock (x0 : Fin 16 → Nat) (output : Fin 64 → Nat)
    (input : Fin 16 → Nat) (R : Nat) (hin : Words input) (hR : R % 2 = 0) :
    doubleroundsFrom x0 output input R = referenceBlock input R := by
  rw [doubleroundsFrom_eq, roundsBody_iterate_eq _ _ hin]
  have : (R + 1) / 2 = R / 2 := by omega
  rw [this]
  rfl

theorem foldl_setState_zero (l : List (Fin 16)) (ctx : chacha_ctx) :
    l.foldl (fun ctx i => setState ctx i 0) ctx =
      { state := l.foldl (fun s i => Function.update s i 0) ctx.state, rounds := ctx.rounds } := by
  induction l generalizing ctx with
  | nil => rfl
  | cons i t ih => rw [List.foldl_cons, ih]; rfl

/-- The function `init_ctx` leaves all 16 state words zero and stores `rounds`. -/
theorem init_ctx_eq (ctx : chacha_ctx) (rounds : Nat) :
    init_ctx ctx rounds = { state := fun _ => 0, rounds := rounds } := by
  unfold init_ctx forLoop
  rw [foldl_setState_zero]
  have : (List.finRange 16).foldl (fun s i => Function.update s i 0) ctx.state = fun _ => 0 := by
    funext j
    exact forLoop_update_apply (fun _ _ => 0) ctx.state j
  simp only [this]

theorem init_rounds (x : chacha_ctx) (key : Fin 32 → Nat) (keylen : Nat) (iv : Fin 8 → Nat) :
    (init x key keylen iv).rounds = x.rounds := by
  unfold init
  split_ifs <;> rfl

/-- The state `init` writes for a 256 bit key, cell by cell. -/
theorem init_256_state (x : chacha_ctx) (key : Fin 32 → Nat) (iv : Fin 8 → Nat) :
    (init x key 256 iv).state = fun i =>
      if h4 : i.val < 4 then U8TO32_LITTLE SIGMA (4 * i.val) (by omega)
      else if h : i.val < 12 then U8TO32_LITTLE key (4 * (i.val - 4)) (by omega)
      else if i.val < 14 then 0
      else U8TO32_LITTLE iv (4 * (i.val - 14)) (by omega) := by
  funext i
  simp only [init, if_true, setState]
  fin_cases i <;> simp [Function.update_apply]

/-- The state `init` writes for any other key length, cell by cell. -/
theorem init_128_state (x : chacha_ctx) (key : Fin 32 → Nat) (keylen : Nat) (hk : keylen ≠ 256)
    (iv : Fin 8 → Nat) :
    (init x key keylen iv).state = fun i =>
      if h4 : i.val < 4 then U8TO32_LITTLE TAU (4 * i.val) (by omega)
      else if h : i.val < 12 then U8TO32_LITTLE key (4 * ((i.val - 4) % 4)) (by omega)
      else if i.val < 14 then 0
      else U8TO32_LITTLE iv (4 * (i.val - 14)) (by omega) := by
  funext i
  simp only [init, if_neg hk, setState]
  fin_cases i <;> simp [Function.update_apply]


theorem Words_sampleWords : Words sampleWords := by
  intro i
  fin_cases i <;> decide

/-! ## The permutation core -/

/-- C1: for every 16-word input and every even rounds value `R`, what
`doublerounds(output, input, R)` leaves in `output` is the reference
construction: copy the input, apply `R / 2` double rounds (column pass, then
diagonal pass), add each working word to the original input word modulo `2^32`,
and store the 16 words as 64 bytes, word `i` little-endian at `4 i .. 4 i + 3`.
This holds for any contents of `output` and of the local array on entry. -/
theorem doublerounds_eq_referenceBlock (x0 : Fin 16 → Nat) (output : Fin 64 → Nat)
    (input : Fin 16 → Nat) (R : Nat) (hin : Words input) (hR : R % 2 = 0) :
    doubleroundsFrom x0 output input R = referenceBlock input R ∧
      doublerounds input R = referenceBlock input R :=
  ⟨doubleroundsFrom_eq_referenceBlock x0 output input R hin hR,
    doubleroundsFrom_eq_referenceBlock _ _ input R hin hR⟩

theorem doublerounds_eq_referenceBlock_witness :
    Words sampleWords ∧ 20 % 2 = 0 ∧
      doublerounds sampleWords 20 = referenceBlock sampleWords 20 :=
  ⟨Words_sampleWords, by decide,
    (doublerounds_eq_referenceBlock (fun _ => 0) (fun _ => 0) sampleWords 20
      Words_sampleWords (by decide)).2⟩

/-- C2: for every 16-word working array `x` and four pairwise distinct indices
`a b c d`, the macro `QUARTERROUND(a, b, c, d)` leaves in `x[a], x[b], x[c], x[d]`
the result of the four-step sequence of the specification (additions modulo
`2^32`, left rotations by 16, 12, 8, 7) on their four old values, leaves every
other cell as it was, and the four new values depend on the four old values only. -/
theorem QUARTERROUND_spec (x : Fin 16 → Nat) (hx : Words x) (a b c d : Fin 16)
    (hab : a ≠ b) (hac : a ≠ c) (had : a ≠ d) (hbc : b ≠ c) (hbd : b ≠ d) (hcd : c ≠ d) :
    (QUARTERROUND a b c d x a, QUARTERROUND a b c d x b,
        QUARTERROUND a b c d x c, QUARTERROUND a b c d x d) =
      quarterRound (x a, x b, x c, x d) ∧
    (∀ i, i ≠ a → i ≠ b → i ≠ c → i ≠ d → QUARTERROUND a b c d x i = x i) ∧
    (∀ y : Fin 16 → Nat, y a = x a → y b = x b → y c = x c → y d = x d →
      QUARTERROUND a b c d y a = QUARTERROUND a b c d x a ∧
      QUARTERROUND a b c d y b = QUARTERROUND a b c d x b ∧
      QUARTERROUND a b c d y c = QUARTERROUND a b c d x c ∧
      QUARTERROUND a b c d y d = QUARTERROUND a b c d x d) := by
  refine ⟨?_, ?_, ?_⟩
  · rw [QUARTERROUND_eq_quarterRoundAt a b c d x hx hab hac had hbc hbd hcd]
    simp [quarterRoundAt, hab.symm, hac.symm, had.symm, hbc.symm, hbd.symm, hcd.symm]
  · intro i ha hb hc hd
    rw [QUARTERROUND_apply a b c d x hab hac had hbc hbd hcd]
    simp [ha, hb, hc, hd]
  · intro y ya yb yc yd
    simp only [QUARTERROUND_apply a b c d _ hab hac had hbc hbd hcd, ya, yb, yc, yd]
    simp

theorem QUARTERROUND_spec_witness :
    (QUARTERROUND 0 4 8 12 sampleWords 0, QUARTERROUND 0 4 8 12 sampleWords 4,
        QUARTERROUND 0 4 8 12 sampleWords 8, QUARTERROUND 0 4 8 12 sampleWords 12) =
      quarterRound (sampleWords 0, sampleWords 4, sampleWords 8, sampleWords 12) :=
  (QUARTERROUND_spec sampleWords Words_sampleWords 0 4 8 12 (by decide) (by decide) (by decide)
    (by decide) (by decide) (by decide)).1

/-- C3: one quarter round on the four words
`(0x11111111, 0x01020304, 0x9b8d6f43, 0x01234567)`, in whichever four distinct
slots of the working array they sit, leaves the published reference quadruple
`(0xea2a92f4, 0xcb1cf8ce, 0x4581472e, 0x5881c4bb)` in those slots. -/
theorem QUARTERROUND_test_vector (x : Fin 16 → Nat) (a b c d : Fin 16)
    (hab : a ≠ b) (hac : a ≠ c) (had : a ≠ d) (hbc : b ≠ c) (hbd : b ≠ d) (hcd : c ≠ d)
    (ha : x a = 0x11111111) (hb : x b = 0x01020304) (hc : x c = 0x9b8d6f43)
    (hd : x d = 0x01234567) :
    QUARTERROUND a b c d x a = 0xea2a92f4 ∧ QUARTERROUND a b c d x b = 0xcb1cf8ce ∧
      QUARTERROUND a b c d x c = 0x4581472e ∧ QUARTERROUND a b c d x d = 0x5881c4bb := by
  simp only [QUARTERROUND_apply a b c d x hab hac had hbc hbd hcd, ha, hb, hc, hd,
    hab.symm, hac.symm, had.symm, hbc.symm, hbd.symm, hcd.symm, if_true, if_false]
  decide!

theorem QUARTERROUND_test_vector_witness :
    QUARTERROUND 0 4 8 12 sampleColumn 0 = 0xea2a92f4 ∧
      QUARTERROUND 0 4 8 12 sampleColumn 4 = 0xcb1cf8ce ∧
      QUARTERROUND 0 4 8 12 sampleColumn 8 = 0x4581472e ∧
      QUARTERROUND 0 4 8 12 sampleColumn 12 = 0x5881c4bb :=
  QUARTERROUND_test_vector sampleColumn 0 4 8 12 (by decide) (by decide) (by decide)
    (by decide) (by decide) (by decide) (by decide) (by decide) (by decide) (by decide)


/-! ## The block generator -/

theorem nextFrom_snd (c0 : Fin 64 → Nat) (ctx : chacha_ctx) (m : Fin 64 → Nat) :
    (nextFrom c0 ctx m).2 = fun i => m i ^^^ doublerounds ctx.state ctx.rounds i := by
  funext j
  exact forLoop_update_apply (fun i _ => m i ^^^ doublerounds ctx.state ctx.rounds i) c0 j

theorem nextFrom_fst_rounds (c0 : Fin 64 → Nat) (ctx : chacha_ctx) (m : Fin 64 → Nat) :
    (nextFrom c0 ctx m).1.rounds = ctx.rounds := by
  simp only [nextFrom, setState]
  split_ifs <;> rfl

theorem nextFrom_fst_state (c0 : Fin 64 → Nat) (ctx : chacha_ctx) (m : Fin 64 → Nat) :
    (nextFrom c0 ctx m).1.state = fun i =>
      if i = 12 then PLUSONE (ctx.state 12)
      else if i = 13 then
        (if PLUSONE (ctx.state 12) = 0 then PLUSONE (ctx.state 13) else ctx.state 13)
      else ctx.state i := by
  funext i
  simp only [nextFrom, setState, Function.update_same]
  by_cases h : PLUSONE (ctx.state 12) = 0
  · simp only [h, if_true, Function.update_apply]
    by_cases h13 : i = 13
    · subst h13; simp
    · by_cases h12 : i = 12
      · subst h12; simp [h]
      · simp [h12, h13]
  · simp only [h, if_false, Function.update_apply]
    by_cases h13 : i = 13
    · subst h13; simp
    · simp [h13]

/-- C4: with the all-zero 32 byte key, key length 256, the all-zero 8 byte nonce
and 20 rounds, `init_ctx`, then `init`, then one call of `next` on the all-zero
data block returns the ChaCha20 reference block `76 b8 e0 ad .. 65 86`, whatever
the context and the result buffer held before. -/
theorem first_block_zero_key (ctx : chacha_ctx) (c0 : Fin 64 → Nat) :
    List.ofFn (nextFrom c0 (init (init_ctx ctx 20) zeroKey 256 zeroIv) zeroBlock).2 =
      [0x76, 0xb8, 0xe0, 0xad, 0xa0, 0xf1, 0x3d, 0x90, 0x40, 0x5d, 0x6a, 0xe5, 0x53, 0x86, 0xbd, 0x28,
       0xbd, 0xd2, 0x19, 0xb8, 0xa0, 0x8d, 0xed, 0x1a, 0xa8, 0x36, 0xef, 0xcc, 0x8b, 0x77, 0x0d, 0xc7,
       0xda, 0x41, 0x59, 0x7c, 0x51, 0x57, 0x48, 0x8d, 0x77, 0x24, 0xe0, 0x3f, 0xb8, 0xd8, 0x4a, 0x37,
       0x6a, 0x43, 0xb8, 0xf4, 0x15, 0x18, 0xa1, 0x1c, 0xc3, 0x87, 0xb6, 0x69, 0xb2, 0xee, 0x65, 0x86] ∧
    List.ofFn (next (init (init_ctx ctx 20) zeroKey 256 zeroIv) zeroBlock).2 =
      [0x76, 0xb8, 0xe0, 0xad, 0xa0, 0xf1, 0x3d, 0x90, 0x40, 0x5d, 0x6a, 0xe5, 0x53, 0x86, 0xbd, 0x28,
       0xbd, 0xd2, 0x19, 0xb8, 0xa0, 0x8d, 0xed, 0x1a, 0xa8, 0x36, 0xef, 0xcc, 0x8b, 0x77, 0x0d, 0xc7,
       0xda, 0x41, 0x59, 0x7c, 0x51, 0x57, 0x48, 0x8d, 0x77, 0x24, 0xe0, 0x3f, 0xb8, 0xd8, 0x4a, 0x37,
       0x6a, 0x43, 0xb8, 0xf4, 0x15, 0x18, 0xa1, 0x1c, 0xc3, 0x87, 0xb6, 0x69, 0xb2, 0xee, 0x65, 0x86] := by
  unfold next
  rw [nextFrom_snd, nextFrom_snd, init_ctx_eq]
  refine ⟨?_, ?_⟩ <;> decide!


/-- The four bytes of `leWord b0 b1 b2 b3`, least significant first, are
`b0 b1 b2 b3`, and the word fits in 32 bits. -/
theorem leWord_bytes (b0 b1 b2 b3 : Nat) (h0 : b0 < 2 ^ 8) (h1 : b1 < 2 ^ 8) (h2 : b2 < 2 ^ 8)
    (h3 : b3 < 2 ^ 8) :
    leWord b0 b1 b2 b3 < 2 ^ 32 ∧ leWord b0 b1 b2 b3 % 256 = b0 ∧
      leWord b0 b1 b2 b3 / 256 % 256 = b1 ∧ leWord b0 b1 b2 b3 / 256 ^ 2 % 256 = b2 ∧
      leWord b0 b1 b2 b3 / 256 ^ 3 % 256 = b3 := by
  unfold leWord
  norm_num at h0 h1 h2 h3 ⊢
  omega

/-! ## The initializer -/

theorem U8TO32_LITTLE_lt {n : Nat} (p : Fin n → Nat) (hp : Bytes p) (off : Nat)
    (h : off + 3 < n) : U8TO32_LITTLE p off h < 2 ^ 32 := by
  have h0 := hp ⟨off, by omega⟩
  have h1 := hp ⟨off + 1, by omega⟩
  have h2 := hp ⟨off + 2, by omega⟩
  have h3 := hp ⟨off + 3, h⟩
  unfold U8TO32_LITTLE
  norm_num at h0 h1 h2 h3 ⊢
  omega

theorem Bytes_SIGMA : Bytes SIGMA := by
  intro i
  fin_cases i <;> decide!

theorem Bytes_TAU : Bytes TAU := by
  intro i
  fin_cases i <;> decide!

/-- The function `init` on a key and a nonce made of bytes leaves 32-bit words
in all 16 cells, whatever the key length selector. -/
theorem Words_init (x : chacha_ctx) (key : Fin 32 → Nat) (keylen : Nat) (iv : Fin 8 → Nat)
    (hk : Bytes key) (hiv : Bytes iv) : Words (init x key keylen iv).state := by
  intro i
  by_cases h : keylen = 256
  · subst h
    rw [init_256_state]
    simp only []
    split_ifs
    · exact U8TO32_LITTLE_lt _ Bytes_SIGMA _ _
    · exact U8TO32_LITTLE_lt _ hk _ _
    · norm_num
    · exact U8TO32_LITTLE_lt _ hiv _ _
  · rw [init_128_state x key keylen h]
    simp only []
    split_ifs
    · exact U8TO32_LITTLE_lt _ Bytes_TAU _ _
    · exact U8TO32_LITTLE_lt _ hk _ _
    · norm_num
    · exact U8TO32_LITTLE_lt _ hiv _ _

/-- One call of `next` keeps all 16 state words within 32 bits. -/
theorem Words_next (c0 : Fin 64 → Nat) (ctx : chacha_ctx) (m : Fin 64 → Nat)
    (h : Words ctx.state) : Words (nextFrom c0 ctx m).1.state := by
  intro i
  rw [nextFrom_fst_state]
  simp only []
  split_ifs
  · exact PLUS_lt _ _
  · exact PLUS_lt _ _
  · exact h 13
  · exact h i


/-- C5: for every 32 byte key and 8 byte nonce, `init` with `keylen = 256`
leaves a state whose words 0..3 are the little-endian words of the ASCII
constant "expand 32-byte k" (`0x61707865, 0x3320646e, 0x79622d32, 0x6b206574`),
whose words 4..11 are the eight little-endian words of key bytes 0..31 in order,
whose words 12 and 13 are 0 and whose words 14 and 15 are the two little-endian
words of the nonce. -/
theorem init_256_layout (x : chacha_ctx) (key : Fin 32 → Nat) (iv : Fin 8 → Nat) :
    (init x key 256 iv).state 0 = 0x61707865 ∧ (init x key 256 iv).state 1 = 0x3320646e ∧
    (init x key 256 iv).state 2 = 0x79622d32 ∧ (init x key 256 iv).state 3 = 0x6b206574 ∧
    (init x key 256 iv).state 0 = leWord ('e').toNat ('x').toNat ('p').toNat ('a').toNat ∧
    (init x key 256 iv).state 1 = leWord ('n').toNat ('d').toNat (' ').toNat ('3').toNat ∧
    (init x key 256 iv).state 2 = leWord ('2').toNat ('-').toNat ('b').toNat ('y').toNat ∧
    (init x key 256 iv).state 3 = leWord ('t').toNat ('e').toNat (' ').toNat ('k').toNat ∧
    (∀ i : Fin 8, (init x key 256 iv).state ⟨4 + i.val, by omega⟩ =
      leWord (key ⟨4 * i.val, by omega⟩) (key ⟨4 * i.val + 1, by omega⟩)
        (key ⟨4 * i.val + 2, by omega⟩) (key ⟨4 * i.val + 3, by omega⟩)) ∧
    (init x key 256 iv).state 12 = 0 ∧ (init x key 256 iv).state 13 = 0 ∧
    (init x key 256 iv).state 14 = leWord (iv 0) (iv 1) (iv 2) (iv 3) ∧
    (init x key 256 iv).state 15 = leWord (iv 4) (iv 5) (iv 6) (iv 7) := by
  rw [init_256_state]
  refine ⟨?_, ?_, ?_, ?_, ?_, ?_, ?_, ?_, ?_, rfl, rfl, ?_, ?_⟩
  · show U8TO32_LITTLE SIGMA 0 _ = _; decide!
  · show U8TO32_LITTLE SIGMA 4 _ = _; decide!
  · show U8TO32_LITTLE SIGMA 8 _ = _; decide!
  · show U8TO32_LITTLE SIGMA 12 _ = _; decide!
  · show U8TO32_LITTLE SIGMA 0 _ = _; decide!
  · show U8TO32_LITTLE SIGMA 4 _ = _; decide!
  · show U8TO32_LITTLE SIGMA 8 _ = _; decide!
  · show U8TO32_LITTLE SIGMA 12 _ = _; decide!
  · intro i
    fin_cases i <;> rfl
  · rfl
  · rfl


/-- C6: for every key and 8 byte nonce, `init` with `keylen = 128` leaves a state
whose words 0..3 are the little-endian words of the ASCII constant
"expand 16-byte k", whose words 4..7 are the four little-endian words of key
bytes 0..15, whose words 8..11 repeat words 4..7, whose words 12 and 13 are 0 and
whose words 14 and 15 are the nonce words; so the context it leaves is the same
for two keys that agree on bytes 0..15. -/
theorem init_128_layout (x : chacha_ctx) (key : Fin 32 → Nat) (iv : Fin 8 → Nat) :
    (init x key 128 iv).state 0 = leWord ('e').toNat ('x').toNat ('p').toNat ('a').toNat ∧
    (init x key 128 iv).state 1 = leWord ('n').toNat ('d').toNat (' ').toNat ('1').toNat ∧
    (init x key 128 iv).state 2 = leWord ('6').toNat ('-').toNat ('b').toNat ('y').toNat ∧
    (init x key 128 iv).state 3 = leWord ('t').toNat ('e').toNat (' ').toNat ('k').toNat ∧
    (∀ i : Fin 4, (init x key 128 iv).state ⟨4 + i.val, by omega⟩ =
      leWord (key ⟨4 * i.val, by omega⟩) (key ⟨4 * i.val + 1, by omega⟩)
        (key ⟨4 * i.val + 2, by omega⟩) (key ⟨4 * i.val + 3, by omega⟩)) ∧
    (∀ i : Fin 4, (init x key 128 iv).state ⟨8 + i.val, by omega⟩ =
      (init x key 128 iv).state ⟨4 + i.val, by omega⟩) ∧
    (init x key 128 iv).state 12 = 0 ∧ (init x key 128 iv).state 13 = 0 ∧
    (init x key 128 iv).state 14 = leWord (iv 0) (iv 1) (iv 2) (iv 3) ∧
    (init x key 128 iv).state 15 = leWord (iv 4) (iv 5) (iv 6) (iv 7) ∧
    (∀ key2 : Fin 32 → Nat, (∀ i : Fin 32, i.val < 16 → key2 i = key i) →
      init x key2 128 iv = init x key 128 iv) := by
  refine ⟨?_, ?_, ?_, ?_, ?_, ?_, ?_, ?_, ?_, ?_, ?_⟩
  · rw [init_128_state x key 128 (by decide)]
    show U8TO32_LITTLE TAU 0 _ = _; decide!
  · rw [init_128_state x key 128 (by decide)]
    show U8TO32_LITTLE TAU 4 _ = _; decide!
  · rw [init_128_state x key 128 (by decide)]
    show U8TO32_LITTLE TAU 8 _ = _; decide!
  · rw [init_128_state x key 128 (by decide)]
    show U8TO32_LITTLE TAU 12 _ = _; decide!
  · rw [init_128_state x key 128 (by decide)]
    intro i
    fin_cases i <;> rfl
  · rw [init_128_state x key 128 (by decide)]
    intro i
    fin_cases i <;> rfl
  · rw [init_128_state x key 128 (by decide)]; rfl
  · rw [init_128_state x key 128 (by decide)]; rfl
  · rw [init_128_state x key 128 (by decide)]; rfl
  · rw [init_128_state x key 128 (by decide)]; rfl
  · intro key2 h
    have hs : (init x key2 128 iv).state = (init x key 128 iv).state := by
      rw [init_128_state x key2 128 (by decide), init_128_state x key 128 (by decide)]
      funext i
      by_cases h4 : i.val < 4
      · simp only [h4, dif_pos]
      · by_cases h12 : i.val < 12
        · simp only [h4, h12, dif_pos, dif_neg, not_false_eq_true]
          simp only [U8TO32_LITTLE]
          rw [h _ (by show 4 * ((i.val - 4) % 4) < 16; omega),
            h _ (by show 4 * ((i.val - 4) % 4) + 1 < 16; omega),
            h _ (by show 4 * ((i.val - 4) % 4) + 2 < 16; omega),
            h _ (by show 4 * ((i.val - 4) % 4) + 3 < 16; omega)]
        · simp only [h4, h12, dif_neg, not_false_eq_true]
    have hr : (init x key2 128 iv).rounds = (init x key 128 iv).rounds := by
      rw [init_rounds, init_rounds]
    cases h1 : init x key2 128 iv
    cases h2 : init x key 128 iv
    rw [h1] at hs hr
    rw [h2] at hs hr
    simp only at hs hr
    rw [hs, hr]

theorem init_128_layout_witness :
    init sampleCtx sampleKeyLow 128 sampleIv = init sampleCtx sampleKey 128 sampleIv :=
  (init_128_layout sampleCtx sampleKey sampleIv).2.2.2.2.2.2.2.2.2.2 sampleKeyLow
    (by intro i hi; simp [sampleKeyLow, sampleKey, hi])


/-! ## One call of `next` -/

/-- C7: for every context and every 64 byte data block `m`, `next(ctx, m, c)`
leaves `c[i] = m[i] XOR k[i]` for all `i` in `0..63`, where `k` is what
`doublerounds` produces from the state words as they are before the call, with
the rounds of the context, whatever its buffers held on entry; for the all-zero
data block the result is the keystream block `k` itself. -/
theorem next_xor_keystream (ctx : chacha_ctx) (m c0 : Fin 64 → Nat) (x0 : Fin 16 → Nat)
    (output : Fin 64 → Nat) :
    (∀ i, (nextFrom c0 ctx m).2 i = m i ^^^ doubleroundsFrom x0 output ctx.state ctx.rounds i) ∧
    (∀ i, (next ctx m).2 i = m i ^^^ doublerounds ctx.state ctx.rounds i) ∧
    (nextFrom c0 ctx zeroBlock).2 = doubleroundsFrom x0 output ctx.state ctx.rounds ∧
    (next ctx zeroBlock).2 = doublerounds ctx.state ctx.rounds := by
  have e : doublerounds ctx.state ctx.rounds =
      doubleroundsFrom x0 output ctx.state ctx.rounds := by
    rw [doublerounds_eq, doubleroundsFrom_eq]
  unfold next
  rw [nextFrom_snd, nextFrom_snd, nextFrom_snd, nextFrom_snd, ← e]
  refine ⟨fun _ => rfl, fun _ => rfl, ?_, ?_⟩ <;>
  · funext i
    simp [zeroBlock]

/-- C8: for every context, one call of `next` increments the low counter word
`state[12]` by 1 modulo `2^32`; when `state[12]` held `0xFFFFFFFF` the low word
becomes 0 and the high counter word `state[13]` is incremented by 1 (modulo
`2^32`), and otherwise `state[13]` is unchanged; so `state[13]` changes exactly
when `state[12]` held `0xFFFFFFFF`, and whenever the 64 bit value
`state[13] * 2^32 + state[12]` is below `2^64 - 1` it advances by exactly 1. -/
theorem next_counter (ctx : chacha_ctx) (m c0 : Fin 64 → Nat)
    (h12 : ctx.state 12 < 2 ^ 32) (h13 : ctx.state 13 < 2 ^ 32) :
    (nextFrom c0 ctx m).1.state 12 = (ctx.state 12 + 1) % 2 ^ 32 ∧
    (ctx.state 12 = 0xFFFFFFFF →
      (nextFrom c0 ctx m).1.state 12 = 0 ∧
      (nextFrom c0 ctx m).1.state 13 = (ctx.state 13 + 1) % 2 ^ 32) ∧
    (ctx.state 12 ≠ 0xFFFFFFFF → (nextFrom c0 ctx m).1.state 13 = ctx.state 13) ∧
    ((nextFrom c0 ctx m).1.state 13 ≠ ctx.state 13 ↔ ctx.state 12 = 0xFFFFFFFF) ∧
    (ctx.state 13 * 2 ^ 32 + ctx.state 12 < 2 ^ 64 - 1 →
      (nextFrom c0 ctx m).1.state 13 * 2 ^ 32 + (nextFrom c0 ctx m).1.state 12 =
        ctx.state 13 * 2 ^ 32 + ctx.state 12 + 1) := by
  rw [nextFrom_fst_state]
  have e12 : (fun i : Fin 16 =>
      if i = 12 then PLUSONE (ctx.state 12)
      else if i = 13 then
        (if PLUSONE (ctx.state 12) = 0 then PLUSONE (ctx.state 13) else ctx.state 13)
      else ctx.state i) 12 = (ctx.state 12 + 1) % 2 ^ 32 := rfl
  have e13 : (fun i : Fin 16 =>
      if i = 12 then PLUSONE (ctx.state 12)
      else if i = 13 then
        (if PLUSONE (ctx.state 12) = 0 then PLUSONE (ctx.state 13) else ctx.state 13)
      else ctx.state i) 13 =
        if (ctx.state 12 + 1) % 2 ^ 32 = 0 then (ctx.state 13 + 1) % 2 ^ 32
        else ctx.state 13 := rfl
  rw [e12, e13]
  have p32 : (2 : Nat) ^ 32 = 4294967296 := by norm_num
  have p64 : (2 : Nat) ^ 64 = 18446744073709551616 := by norm_num
  simp only [p32, p64] at h12 h13 ⊢
  by_cases hc : (ctx.state 12 + 1) % 4294967296 = 0
  · simp only [hc, if_true]
    refine ⟨trivial, fun _ => ⟨trivial, trivial⟩, ?_, ?_, ?_⟩
    · intro h; omega
    · constructor
      · intro _; omega
      · intro _; omega
    · intro h; omega
  · simp only [hc, if_false]
    refine ⟨trivial, ?_, fun _ => trivial, ?_, ?_⟩
    · intro h; omega
    · constructor
      · intro h; exact absurd rfl h
      · intro h; omega
    · intro h; omega

theorem next_counter_witness :
    (nextFrom zeroBlock sampleCtx zeroBlock).1.state 12 = 0 ∧
      (nextFrom zeroBlock sampleCtx zeroBlock).1.state 13 = 6 :=
  ((next_counter sampleCtx zeroBlock zeroBlock (by decide) (by decide)).2.1 (by decide)).imp
    id (fun h => h.trans (by decide))

/-- C9: for every context and every data block, `next` leaves the state words
0..11 (constants and key) and 14..15 (nonce) and the `rounds` field as they are;
the only state words it may change are the counter words 12 and 13. -/
theorem next_frame (ctx : chacha_ctx) (m c0 : Fin 64 → Nat) :
    (∀ i : Fin 16, i ≠ 12 → i ≠ 13 → (nextFrom c0 ctx m).1.state i = ctx.state i) ∧
    (nextFrom c0 ctx m).1.rounds = ctx.rounds ∧
    (∀ i : Fin 16, i ≠ 12 → i ≠ 13 → (next ctx m).1.state i = ctx.state i) ∧
    (next ctx m).1.rounds = ctx.rounds := by
  unfold next
  simp only [nextFrom_fst_state, nextFrom_fst_rounds]
  refine ⟨?_, trivial, ?_, trivial⟩ <;>
  · intro i h12 h13
    simp [h12, h13]

theorem next_frame_witness :
    (next sampleCtx zeroBlock).1.state 4 = sampleCtx.state 4 ∧
      (next sampleCtx zeroBlock).1.state 15 = sampleCtx.state 15 :=
  ⟨(next_frame sampleCtx zeroBlock zeroBlock).2.2.1 4 (by decide) (by decide),
    (next_frame sampleCtx zeroBlock zeroBlock).2.2.1 15 (by decide) (by decide)⟩


/-! ## The counter over a stream -/

/-- After `n` calls of `next` from a context whose counter words are 0, the
counter words hold `n` as a 64 bit value split in two words (modulo `2^64`),
and nothing else has changed. -/
theorem nextIter_state (ctx : chacha_ctx) (data : Nat → Fin 64 → Nat) (n : Nat)
    (h12 : ctx.state 12 = 0) (h13 : ctx.state 13 = 0) :
    (nextIter ctx data n).state =
        Function.update (Function.update ctx.state 12 (n % 2 ^ 32)) 13 (n / 2 ^ 32 % 2 ^ 32) ∧
      (nextIter ctx data n).rounds = ctx.rounds := by
  induction n with
  | zero =>
    refine ⟨?_, rfl⟩
    funext i
    simp only [nextIter, Function.update_apply]
    split_ifs with a b <;> simp_all
  | succ n ih =>
    obtain ⟨hs, hr⟩ := ih
    refine ⟨?_, ?_⟩
    · funext i
      simp only [nextIter, next, nextFrom_fst_state, hs, PLUSONE, PLUS, Function.update_apply]
      have p32 : (2 : Nat) ^ 32 = 4294967296 := by norm_num
      simp only [p32]
      by_cases a : i = 13
      · subst a
        simp only [show ((13 : Fin 16) = 12) = False by decide, show ((12 : Fin 16) = 13) = False
          by decide, if_true, if_false]
        split_ifs <;> omega
      · by_cases b : i = 12
        · subst b
          simp only [show ((12 : Fin 16) = 13) = False by decide, if_true, if_false]
          omega
        · simp only [a, b, if_false]
    · simp only [nextIter, next, nextFrom_fst_rounds, hr]

/-- C10: for every key, key length in `{128, 256}`, nonce, rounds and every
`n < 2^64`: after `init_ctx`, `init` and `n` calls of `next`, the counter words
hold `n` (`state[12] = n mod 2^32`, `state[13] = n div 2^32`), every other word
and the rounds are as `init` left them, and the next call of `next` returns the
data block XOR `doublerounds` of the `init` state with its counter words
replaced by `n`. -/
theorem stream_counter (ctx : chacha_ctx) (rounds : Nat) (key : Fin 32 → Nat) (keylen : Nat)
    (iv : Fin 8 → Nat) (data : Nat → Fin 64 → Nat) (n : Nat)
    (hk : keylen = 128 ∨ keylen = 256) (hn : n < 2 ^ 64) :
    (nextIter (init (init_ctx ctx rounds) key keylen iv) data n).state 12 = n % 2 ^ 32 ∧
    (nextIter (init (init_ctx ctx rounds) key keylen iv) data n).state 13 = n / 2 ^ 32 ∧
    (∀ i : Fin 16, i ≠ 12 → i ≠ 13 →
      (nextIter (init (init_ctx ctx rounds) key keylen iv) data n).state i =
        (init (init_ctx ctx rounds) key keylen iv).state i) ∧
    (nextIter (init (init_ctx ctx rounds) key keylen iv) data n).rounds = rounds ∧
    (∀ m : Fin 64 → Nat, ∀ i,
      (next (nextIter (init (init_ctx ctx rounds) key keylen iv) data n) m).2 i =
        m i ^^^ doublerounds
          (Function.update (Function.update (init (init_ctx ctx rounds) key keylen iv).state
            12 (n % 2 ^ 32)) 13 (n / 2 ^ 32)) rounds i) := by
  have h12 : (init (init_ctx ctx rounds) key keylen iv).state 12 = 0 := by
    rcases hk with hk | hk
    · rw [hk, init_128_state _ key 128 (by decide)]; rfl
    · rw [hk, init_256_state]; rfl
  have h13 : (init (init_ctx ctx rounds) key keylen iv).state 13 = 0 := by
    rcases hk with hk | hk
    · rw [hk, init_128_state _ key 128 (by decide)]; rfl
    · rw [hk, init_256_state]; rfl
  have hr : (init (init_ctx ctx rounds) key keylen iv).rounds = rounds := by
    rw [init_rounds, init_ctx_eq]
  obtain ⟨hs, hr2⟩ := nextIter_state (init (init_ctx ctx rounds) key keylen iv) data n h12 h13
  have hdiv : n / 2 ^ 32 % 2 ^ 32 = n / 2 ^ 32 := by
    apply Nat.mod_eq_of_lt
    rw [Nat.div_lt_iff_lt_mul (by positivity)]
    calc n < 2 ^ 64 := hn
      _ = 2 ^ 32 * 2 ^ 32 := by norm_num
  rw [hdiv] at hs
  refine ⟨?_, ?_, ?_, ?_, ?_⟩
  · rw [hs]; simp
  · rw [hs]; simp
  · intro i a b
    rw [hs]; simp [a, b]
  · rw [hr2, hr]
  · intro m i
    unfold next
    rw [nextFrom_snd, hs, hr2, hr]

theorem stream_counter_witness :
    (256 = 128 ∨ 256 = 256) ∧ 1 < 2 ^ 64 ∧
      (nextIter (init (init_ctx sampleCtx 20) sampleKey 256 sampleIv)
        (fun _ => zeroBlock) 1).state 12 = 1 % 2 ^ 32 ∧
      (nextIter (init (init_ctx sampleCtx 20) sampleKey 256 sampleIv)
        (fun _ => zeroBlock) 1).state 13 = 1 / 2 ^ 32 :=
  ⟨Or.inr rfl, by norm_num,
    (stream_counter sampleCtx 20 sampleKey 256 sampleIv (fun _ => zeroBlock) 1
      (Or.inr rfl) (by norm_num)).1,
    (stream_counter sampleCtx 20 sampleKey 256 sampleIv (fun _ => zeroBlock) 1
      (Or.inr rfl) (by norm_num)).2.1⟩

/-! ## Relations between runs -/

theorem init_state_indep (x y : chacha_ctx) (key : Fin 32 → Nat) (keylen : Nat)
    (iv : Fin 8 → Nat) : (init x key keylen iv).state = (init y key keylen iv).state := by
  by_cases h : keylen = 256
  · subst h
    rw [init_256_state, init_256_state]
  · rw [init_128_state x key keylen h, init_128_state y key keylen h]

theorem ctx_ext (x y : chacha_ctx) (hs : x.state = y.state) (hr : x.rounds = y.rounds) :
    x = y := by
  cases x
  cases y
  simp only at hs hr
  rw [hs, hr]

/-- The context after `n` calls of `next` does not depend on the data blocks. -/
theorem nextIter_data_indep (ctx : chacha_ctx) (data1 data2 : Nat → Fin 64 → Nat) (n : Nat) :
    nextIter ctx data1 n = nextIter ctx data2 n := by
  induction n with
  | zero => rfl
  | succ n ih =>
    apply ctx_ext
    · simp only [nextIter, next, nextFrom_fst_state, ih]
    · simp only [nextIter, next, nextFrom_fst_rounds, ih]

/-- C11: encrypting and decrypting are the same operation: for every context and
every 64 byte block `P`, if `C` is what `next` returns on `P`, then `next` on the
same original context with input `C` returns `P`; byte by byte,
`xor(xor(P, K), K) = P` for all blocks `P` and `K`. -/
theorem next_involution (ctx : chacha_ctx) (P c0 c1 : Fin 64 → Nat) :
    (nextFrom c1 ctx (nextFrom c0 ctx P).2).2 = P ∧
    (next ctx (next ctx P).2).2 = P ∧
    (∀ K : Fin 64 → Nat, ∀ i, XOR (XOR (P i) (K i)) (K i) = P i) := by
  unfold next
  simp only [nextFrom_snd]
  refine ⟨?_, ?_, ?_⟩
  · funext i
    simp only [Nat.xor_assoc, Nat.xor_self, Nat.xor_zero]
  · funext i
    simp only [Nat.xor_assoc, Nat.xor_self, Nat.xor_zero]
  · intro K i
    simp only [XOR, Nat.xor_assoc, Nat.xor_self, Nat.xor_zero]

/-- C12: for every context, whatever its 16 words hold (for instance after any
number of calls of `next`), `init` with a given key, key length and nonce leaves
exactly the 16 state words it leaves on a context freshly zeroed by `init_ctx`,
and leaves the rounds field as it was; so the first block after
re-initialization is the first block of a freshly constructed state with the
same key, nonce and rounds. -/
theorem init_reset (ctx fresh : chacha_ctx) (rounds : Nat) (key : Fin 32 → Nat) (keylen : Nat)
    (iv : Fin 8 → Nat) (m c0 c1 : Fin 64 → Nat) :
    (init ctx key keylen iv).state = (init (init_ctx fresh rounds) key keylen iv).state ∧
    (init ctx key keylen iv).rounds = ctx.rounds ∧
    init ctx key keylen iv = init (init_ctx fresh ctx.rounds) key keylen iv ∧
    (nextFrom c0 (init ctx key keylen iv) m).2 =
      (nextFrom c1 (init (init_ctx fresh ctx.rounds) key keylen iv) m).2 := by
  have e : init ctx key keylen iv = init (init_ctx fresh ctx.rounds) key keylen iv := by
    apply ctx_ext
    · exact init_state_indep _ _ key keylen iv
    · rw [init_rounds, init_rounds, init_ctx_eq]
  refine ⟨init_state_indep _ _ key keylen iv, init_rounds ctx key keylen iv, e, ?_⟩
  rw [nextFrom_snd, nextFrom_snd, ← e]

/-- C13: two contexts constructed by `init_ctx` and `init` with the same key, key
length, nonce and rounds, whatever they and the result buffers held before, are
in the same state after any number `n` of calls of `next`, and the next call
returns the same block in both when fed the same data: identical keystream
sequences. -/
theorem stream_deterministic (ctx1 ctx2 : chacha_ctx) (rounds : Nat) (key : Fin 32 → Nat)
    (keylen : Nat) (iv : Fin 8 → Nat) (data : Nat → Fin 64 → Nat) (n : Nat)
    (c1 c2 : Fin 64 → Nat) :
    nextIter (init (init_ctx ctx1 rounds) key keylen iv) data n =
      nextIter (init (init_ctx ctx2 rounds) key keylen iv) data n ∧
    (nextFrom c1 (nextIter (init (init_ctx ctx1 rounds) key keylen iv) data n) (data n)).2 =
      (nextFrom c2 (nextIter (init (init_ctx ctx2 rounds) key keylen iv) data n) (data n)).2 := by
  have e : init_ctx ctx1 rounds = init_ctx ctx2 rounds := by
    rw [init_ctx_eq, init_ctx_eq]
  rw [e, nextFrom_snd, nextFrom_snd]
  exact ⟨rfl, rfl⟩

/-- C19: the data never feeds back into the cipher: for every context and any
two 64 byte data blocks `m1`, `m2`, the context after `next(ctx, m1)` is the
context after `next(ctx, m2)`, and the keystream bytes `c1[i] XOR m1[i]` and
`c2[i] XOR m2[i]` are equal for all `i`; so the contexts along a stream, and with
them the keystream, do not depend on the data processed. -/
theorem next_data_independent (ctx : chacha_ctx) (m1 m2 c1 c2 : Fin 64 → Nat)
    (data1 data2 : Nat → Fin 64 → Nat) (n : Nat) :
    (nextFrom c1 ctx m1).1 = (nextFrom c2 ctx m2).1 ∧
    (∀ i, (nextFrom c1 ctx m1).2 i ^^^ m1 i = (nextFrom c2 ctx m2).2 i ^^^ m2 i) ∧
    nextIter ctx data1 n = nextIter ctx data2 n ∧
    (∀ i, (next (nextIter ctx data1 n) (data1 n)).2 i ^^^ data1 n i =
      (next (nextIter ctx data2 n) (data2 n)).2 i ^^^ data2 n i) := by
  have k : ∀ (c : chacha_ctx) (a b : Fin 64 → Nat) (i : Fin 64),
      (nextFrom a c b).2 i ^^^ b i = doublerounds c.state c.rounds i := by
    intro c a b i
    rw [nextFrom_snd]
    simp only [Nat.xor_comm (b i), Nat.xor_assoc, Nat.xor_self, Nat.xor_zero]
  refine ⟨?_, ?_, nextIter_data_indep ctx data1 data2 n, ?_⟩
  · apply ctx_ext
    · rw [nextFrom_fst_state, nextFrom_fst_state]
    · rw [nextFrom_fst_rounds, nextFrom_fst_rounds]
  · intro i
    rw [k, k]
  · intro i
    unfold next
    rw [k, k, nextIter_data_indep ctx data1 data2 n]

/-- C20: counter exhaustion wraps silently: when `state[12] = state[13] =
0xFFFFFFFF` (64 bit counter `2^64 - 1`), `next` still returns the block for that
counter and leaves both counter words at 0, so the 64 bit counter is
incremented modulo `2^64`, and the following call returns the keystream of
counter 0; after `init`, the context after `2^64` calls is the context `init`
left. -/
theorem counter_exhaustion_wraps (ctx : chacha_ctx) (m c0 : Fin 64 → Nat)
    (h12 : ctx.state 12 = 0xFFFFFFFF) (h13 : ctx.state 13 = 0xFFFFFFFF) :
    (∀ i, (nextFrom c0 ctx m).2 i = m i ^^^ doublerounds ctx.state ctx.rounds i) ∧
    (nextFrom c0 ctx m).1.state 12 = 0 ∧ (nextFrom c0 ctx m).1.state 13 = 0 ∧
    (nextFrom c0 ctx m).1.state 13 * 2 ^ 32 + (nextFrom c0 ctx m).1.state 12 =
      (ctx.state 13 * 2 ^ 32 + ctx.state 12 + 1) % 2 ^ 64 ∧
    (∀ m2 c2 : Fin 64 → Nat, ∀ i, (nextFrom c2 (nextFrom c0 ctx m).1 m2).2 i =
      m2 i ^^^ doublerounds (Function.update (Function.update ctx.state 12 0) 13 0)
        ctx.rounds i) ∧
    (∀ (x : chacha_ctx) (key : Fin 32 → Nat) (keylen : Nat) (iv : Fin 8 → Nat)
      (data : Nat → Fin 64 → Nat),
      nextIter (init x key keylen iv) data (2 ^ 64) = init x key keylen iv) := by
  have hs : (nextFrom c0 ctx m).1.state =
      Function.update (Function.update ctx.state 12 0) 13 0 := by
    rw [nextFrom_fst_state]
    funext i
    have p : PLUSONE (ctx.state 12) = 0 := by rw [h12]; decide
    have q : PLUSONE (ctx.state 13) = 0 := by rw [h13]; decide
    simp only [p, q, if_true, Function.update_apply]
    by_cases a : i = 13
    · subst a; simp
    · by_cases b : i = 12
      · subst b; simp
      · simp [a, b]
  refine ⟨?_, ?_, ?_, ?_, ?_, ?_⟩
  · intro i
    rw [nextFrom_snd]
  · rw [hs]; simp
  · rw [hs]; simp
  · rw [hs, h12, h13]; simp
  · intro m2 c2 i
    rw [nextFrom_snd, hs, nextFrom_fst_rounds]
  · intro x key keylen iv data
    have z12 : (init x key keylen iv).state 12 = 0 := by
      by_cases h : keylen = 256
      · subst h; rw [init_256_state]; rfl
      · rw [init_128_state x key keylen h]; rfl
    have z13 : (init x key keylen iv).state 13 = 0 := by
      by_cases h : keylen = 256
      · subst h; rw [init_256_state]; rfl
      · rw [init_128_state x key keylen h]; rfl
    obtain ⟨es, er⟩ := nextIter_state (init x key keylen iv) data (2 ^ 64) z12 z13
    apply ctx_ext _ _ _ er
    rw [es]
    funext i
    have a : (2 : Nat) ^ 64 % 2 ^ 32 = 0 := by norm_num
    have b : (2 : Nat) ^ 64 / 2 ^ 32 % 2 ^ 32 = 0 := by norm_num
    rw [a, b]
    simp only [Function.update_apply]
    split_ifs with h1 h2
    · rw [h1, z13]
    · rw [h2, z12]
    · rfl

theorem counter_exhaustion_wraps_witness :
    (nextFrom zeroBlock sampleCtxLast zeroBlock).1.state 12 = 0 ∧
      (nextFrom zeroBlock sampleCtxLast zeroBlock).1.state 13 = 0 :=
  ⟨(counter_exhaustion_wraps sampleCtxLast zeroBlock zeroBlock (by decide) (by decide)).2.1,
    (counter_exhaustion_wraps sampleCtxLast zeroBlock zeroBlock (by decide) (by decide)).2.2.1⟩

/-! ## Validation -/

/-- C14, as stated, fails: with the key length selector 64, neither 128 nor 256,
`init` reports nothing and writes the state: it leaves exactly what it leaves
with the selector 128, and word 0 of the sample context has changed. -/
theorem init_bad_keylen_writes :
    init sampleCtx sampleKey 64 sampleIv = init sampleCtx sampleKey 128 sampleIv ∧
      (init sampleCtx sampleKey 64 sampleIv).state 0 = 0x61707865 ∧
      sampleCtx.state 0 = 0 ∧
      (init sampleCtx sampleKey 64 sampleIv).state ≠ sampleCtx.state := by
  have e : (init sampleCtx sampleKey 64 sampleIv).state 0 = 0x61707865 := by
    rw [init_128_state sampleCtx sampleKey 64 (by decide)]
    show U8TO32_LITTLE TAU 0 _ = _
    decide!
  refine ⟨?_, e, rfl, ?_⟩
  · apply ctx_ext
    · rw [init_128_state sampleCtx sampleKey 64 (by decide),
        init_128_state sampleCtx sampleKey 128 (by decide)]
    · rw [init_rounds, init_rounds]
  · intro h
    have h0 := congrFun h 0
    rw [e] at h0
    exact absurd h0 (by decide)

/-- C14, amended: `init` has no failure mode and validates nothing.  The only
key length selector it tells apart is 256: with any other selector it does what
it does with 128.  It takes no nonce length and reads exactly 8 nonce bytes.  In
every case it writes all 16 state words, so that what it leaves does not depend
on what the state held, and it leaves the rounds field as it was. -/
theorem init_no_validation (x : chacha_ctx) (key : Fin 32 → Nat) (keylen : Nat)
    (iv : Fin 8 → Nat) (h : keylen ≠ 256) :
    init x key keylen iv = init x key 128 iv ∧
    (∀ y : chacha_ctx, (init y key keylen iv).state = (init x key keylen iv).state) ∧
    (init x key keylen iv).rounds = x.rounds := by
  refine ⟨?_, fun y => init_state_indep y x key keylen iv, init_rounds x key keylen iv⟩
  apply ctx_ext
  · rw [init_128_state x key keylen h, init_128_state x key 128 (by decide)]
  · rw [init_rounds, init_rounds]

theorem init_no_validation_witness :
    (64 ≠ 256) ∧ init sampleCtx sampleKey 64 sampleIv = init sampleCtx sampleKey 128 sampleIv :=
  ⟨by decide, (init_no_validation sampleCtx sampleKey 64 sampleIv (by decide)).1⟩

/-- C15, as stated, fails: with the rounds value 7, odd and not one of 8, 12, 20,
`init_ctx` reports nothing, stores 7 and zeroes the state (word 12 of the sample
context held `0xFFFFFFFF`), and `doublerounds` with 7 rounds returns a block:
the one of the construction with 8 rounds. -/
theorem init_ctx_odd_rounds_accepted :
    (init_ctx sampleCtx 7).rounds = 7 ∧ (init_ctx sampleCtx 7).state 12 = 0 ∧
      sampleCtx.state 12 = 0xFFFFFFFF ∧
      doublerounds sampleWords 7 = referenceBlock sampleWords 8 := by
  refine ⟨?_, ?_, rfl, ?_⟩
  · rw [init_ctx_eq]
  · rw [init_ctx_eq]
  · rw [doublerounds_eq, roundsBody_iterate_eq _ _ Words_sampleWords]
    rfl

/-- C15, amended: no rounds value is rejected.  For every rounds value `init_ctx`
zeroes the 16 state words and stores the value as given, and `doublerounds`
with the stored value `R` runs `⌈R / 2⌉` double rounds (the loop body), then the
feed-forward and the little-endian store. -/
theorem init_ctx_any_rounds (ctx : chacha_ctx) (rounds : Nat) (input : Fin 16 → Nat) :
    init_ctx ctx rounds = { state := fun _ => 0, rounds := rounds } ∧
    roundsLoop rounds (rounds : Int) input = roundsBody^[(rounds + 1) / 2] input ∧
    doublerounds input rounds =
      serialize (fun i => PLUS ((roundsBody^[(rounds + 1) / 2] input) i) (input i)) :=
  ⟨init_ctx_eq ctx rounds, roundsLoop_fuel rounds rounds input (by omega),
    doublerounds_eq input rounds⟩

/-! ## Odd rounds values -/

/-- C17: for every rounds value `R` the round loop of `doublerounds` ends after
exactly `⌈R / 2⌉` passes through its body, for every iteration bound of at least
that many; so for every odd `R` and every input `doublerounds` with `R` rounds
returns the 64 bytes it returns with `R + 1` rounds, and with `R = 0` output
word `i` is `2 * input[i] mod 2^32`. -/
theorem doublerounds_odd_rounds (x0 : Fin 16 → Nat) (output : Fin 64 → Nat)
    (input : Fin 16 → Nat) (R : Nat) :
    (∀ fuel, (R + 1) / 2 ≤ fuel →
      roundsLoop fuel (R : Int) input = roundsBody^[(R + 1) / 2] input) ∧
    roundsLoop R (R : Int) input = roundsBody^[(R + 1) / 2] input ∧
    (R % 2 = 1 →
      doubleroundsFrom x0 output input R = doubleroundsFrom x0 output input (R + 1) ∧
      doublerounds input R = doublerounds input (R + 1)) ∧
    doublerounds input 0 = serialize (fun i => (2 * input i) % 2 ^ 32) := by
  refine ⟨fun fuel h => roundsLoop_fuel fuel R input h,
    roundsLoop_fuel R R input (by omega), ?_, ?_⟩
  · intro h
    have e : (R + 1 + 1) / 2 = (R + 1) / 2 := by omega
    rw [doublerounds_eq, doublerounds_eq, doubleroundsFrom_eq, doubleroundsFrom_eq, e]
    exact ⟨rfl, rfl⟩
  · have e : (fun i => PLUS ((roundsBody^[(0 + 1) / 2] input) i) (input i)) =
        fun i => (2 * input i) % 2 ^ 32 := by
      funext i
      show (input i + input i) % 2 ^ 32 = (2 * input i) % 2 ^ 32
      rw [two_mul]
    rw [doublerounds_eq, e]

theorem doublerounds_odd_rounds_witness :
    7 % 2 = 1 ∧ doublerounds sampleWords 7 = doublerounds sampleWords (7 + 1) :=
  ⟨by decide, ((doublerounds_odd_rounds (fun _ => 0) (fun _ => 0) sampleWords 7).2.2.1
    (by decide)).2⟩

/-! ## The order of the quarter rounds in a pass -/

theorem QUARTERROUND_apply_values (a b c d : Fin 16) (x : Fin 16 → Nat)
    (hab : a ≠ b) (hac : a ≠ c) (had : a ≠ d) (hbc : b ≠ c) (hbd : b ≠ d) (hcd : c ≠ d)
    (i : Fin 16) :
    QUARTERROUND a b c d x i =
      if i = a then (QUARTERROUND_values (x a) (x b) (x c) (x d)).1
      else if i = b then (QUARTERROUND_values (x a) (x b) (x c) (x d)).2.1
      else if i = c then (QUARTERROUND_values (x a) (x b) (x c) (x d)).2.2.1
      else if i = d then (QUARTERROUND_values (x a) (x b) (x c) (x d)).2.2.2
      else x i := by
  rw [QUARTERROUND_apply a b c d x hab hac had hbc hbd hcd i]
  rfl

/-- Two quarter rounds on disjoint quadruples of slots can be exchanged. -/
theorem QUARTERROUND_comm (a b c d e f g h : Fin 16) (x : Fin 16 → Nat)
    (hn : [a, b, c, d, e, f, g, h].Nodup) :
    QUARTERROUND a b c d (QUARTERROUND e f g h x) =
      QUARTERROUND e f g h (QUARTERROUND a b c d x) := by
  simp only [List.nodup_cons, List.mem_cons, List.mem_singleton, not_or, List.not_mem_nil,
    not_false_eq_true, List.nodup_nil, and_true] at hn
  obtain ⟨⟨hab, hac, had, hae, haf, hag, hah⟩, ⟨hbc, hbd, hbe, hbf, hbg, hbh⟩,
    ⟨hcd, hce, hcf, hcg, hch⟩, ⟨hde, hdf, hdg, hdh⟩, ⟨hef, heg, heh⟩, ⟨hfg, hfh⟩, hgh⟩ := hn
  have L := QUARTERROUND_apply_values a b c d
  have M := QUARTERROUND_apply_values e f g h
  funext i
  rw [L (QUARTERROUND e f g h x) hab hac had hbc hbd hcd i,
    M (QUARTERROUND a b c d x) hef heg heh hfg hfh hgh i]
  have ya : QUARTERROUND e f g h x a = x a := by
    rw [M _ hef heg heh hfg hfh hgh]; simp only [hae, haf, hag, hah, if_false]
  have yb : QUARTERROUND e f g h x b = x b := by
    rw [M _ hef heg heh hfg hfh hgh]; simp only [hbe, hbf, hbg, hbh, if_false]
  have yc : QUARTERROUND e f g h x c = x c := by
    rw [M _ hef heg heh hfg hfh hgh]; simp only [hce, hcf, hcg, hch, if_false]
  have yd : QUARTERROUND e f g h x d = x d := by
    rw [M _ hef heg heh hfg hfh hgh]; simp only [hde, hdf, hdg, hdh, if_false]
  have ze : QUARTERROUND a b c d x e = x e := by
    rw [L _ hab hac had hbc hbd hcd]
    simp only [Ne.symm hae, Ne.symm hbe, Ne.symm hce, Ne.symm hde, if_false]
  have zf : QUARTERROUND a b c d x f = x f := by
    rw [L _ hab hac had hbc hbd hcd]
    simp only [Ne.symm haf, Ne.symm hbf, Ne.symm hcf, Ne.symm hdf, if_false]
  have zg : QUARTERROUND a b c d x g = x g := by
    rw [L _ hab hac had hbc hbd hcd]
    simp only [Ne.symm hag, Ne.symm hbg, Ne.symm hcg, Ne.symm hdg, if_false]
  have zh : QUARTERROUND a b c d x h = x h := by
    rw [L _ hab hac had hbc hbd hcd]
    simp only [Ne.symm hah, Ne.symm hbh, Ne.symm hch, Ne.symm hdh, if_false]
  rw [ya, yb, yc, yd, ze, zf, zg, zh, L x hab hac had hbc hbd hcd i,
    M x hef heg heh hfg hfh hgh i]
  by_cases ia : i = a
  · subst ia; simp only [if_true, hae, haf, hag, hah, if_false]
  by_cases ib : i = b
  · subst ib; simp only [if_true, hbe, hbf, hbg, hbh, if_false, ia]
  by_cases ic : i = c
  · subst ic; simp only [if_true, hce, hcf, hcg, hch, if_false, ia, ib]
  by_cases id : i = d
  · subst id; simp only [if_true, hde, hdf, hdg, hdh, if_false, ia, ib, ic]
  simp only [ia, ib, ic, id, if_false]

theorem mem_columnQuads_nodup (p q : Fin 16 × Fin 16 × Fin 16 × Fin 16)
    (hp : p ∈ columnQuads) (hq : q ∈ columnQuads) (hpq : p ≠ q) :
    (quadIndices p ++ quadIndices q).Nodup := by
  simp only [columnQuads, List.mem_cons, List.mem_singleton, List.not_mem_nil, or_false] at hp hq
  rcases hp with rfl | rfl | rfl | rfl <;> rcases hq with rfl | rfl | rfl | rfl <;>
    first
      | exact absurd rfl hpq
      | decide

theorem mem_diagonalQuads_nodup (p q : Fin 16 × Fin 16 × Fin 16 × Fin 16)
    (hp : p ∈ diagonalQuads) (hq : q ∈ diagonalQuads) (hpq : p ≠ q) :
    (quadIndices p ++ quadIndices q).Nodup := by
  simp only [diagonalQuads, List.mem_cons, List.mem_singleton, List.not_mem_nil, or_false]
    at hp hq
  rcases hp with rfl | rfl | rfl | rfl <;> rcases hq with rfl | rfl | rfl | rfl <;>
    first
      | exact absurd rfl hpq
      | decide

/-- Quarter rounds on quadruples that are pairwise disjoint give the same array
in every order. -/
theorem applyQuads_perm (l l2 : List (Fin 16 × Fin 16 × Fin 16 × Fin 16)) (x : Fin 16 → Nat)
    (hd : ∀ p ∈ l, ∀ q ∈ l, p ≠ q → (quadIndices p ++ quadIndices q).Nodup)
    (hp : l2.Perm l) : applyQuads l2 x = applyQuads l x := by
  unfold applyQuads
  apply List.Perm.foldl_eq' hp
  intro p hpm q hqm z
  by_cases e : p = q
  · rw [e]
  · exact (QUARTERROUND_comm q.1 q.2.1 q.2.2.1 q.2.2.2 p.1 p.2.1 p.2.2.1 p.2.2.2 z
      (hd q (hp.subset hqm) p (hp.subset hpm) (Ne.symm e)))

/-- C18: the four column quarter rounds act on the index sets `(0,4,8,12)`,
`(1,5,9,13)`, `(2,6,10,14)`, `(3,7,11,15)`, which are pairwise disjoint and cover
`0..15`, and so do the four diagonal ones on `(0,5,10,15)`, `(1,6,11,12)`,
`(2,7,8,13)`, `(3,4,9,14)`; the loop body is the column quarter rounds followed
by the diagonal ones; and for every working array the four quarter rounds of a
pass, applied in any order, give the array the order of the source gives. -/
theorem pass_order_irrelevant (x : Fin 16 → Nat) :
    (columnQuads.flatMap quadIndices).Perm (List.finRange 16) ∧
    (diagonalQuads.flatMap quadIndices).Perm (List.finRange 16) ∧
    roundsBody x = applyQuads diagonalQuads (applyQuads columnQuads x) ∧
    (∀ l : List (Fin 16 × Fin 16 × Fin 16 × Fin 16), l.Perm columnQuads →
      applyQuads l x = applyQuads columnQuads x) ∧
    (∀ l : List (Fin 16 × Fin 16 × Fin 16 × Fin 16), l.Perm diagonalQuads →
      applyQuads l x = applyQuads diagonalQuads x) :=
  ⟨by decide, by decide, rfl,
    fun l hl => applyQuads_perm columnQuads l x
      (fun p hp q hq => mem_columnQuads_nodup p q hp hq) hl,
    fun l hl => applyQuads_perm diagonalQuads l x
      (fun p hp q hq => mem_diagonalQuads_nodup p q hp hq) hl⟩

theorem pass_order_irrelevant_witness :
    applyQuads [(3, 7, 11, 15), (1, 5, 9, 13), (2, 6, 10, 14), (0, 4, 8, 12)] sampleWords =
      applyQuads columnQuads sampleWords :=
  (pass_order_irrelevant sampleWords).2.2.2.1
    [(3, 7, 11, 15), (1, 5, 9, 13), (2, 6, 10, 14), (0, 4, 8, 12)] (by decide)

/-! ## The quarter round is invertible -/

theorem two_pow_split (n : Nat) (hn : n ≤ 32) : 2 ^ n * 2 ^ (32 - n) = 2 ^ 32 := by
  rw [← pow_add]
  congr 1
  omega

theorem rotr32_lt (v n : Nat) (hv : v < 2 ^ 32) (hn : n ≤ 32) : rotr32 v n < 2 ^ 32 := by
  unfold rotr32
  have h1 : v % 2 ^ n < 2 ^ n := Nat.mod_lt _ (by positivity)
  have h2 : v / 2 ^ n < 2 ^ (32 - n) := by
    rw [Nat.div_lt_iff_lt_mul (by positivity), Nat.mul_comm, two_pow_split n hn]
    exact hv
  calc v / 2 ^ n + v % 2 ^ n * 2 ^ (32 - n)
      < 2 ^ (32 - n) + v % 2 ^ n * 2 ^ (32 - n) := by omega
    _ = (v % 2 ^ n + 1) * 2 ^ (32 - n) := by ring
    _ ≤ 2 ^ n * 2 ^ (32 - n) := Nat.mul_le_mul_right _ h1
    _ = 2 ^ 32 := two_pow_split n hn

theorem rotr32_rotl32 (v n : Nat) (hv : v < 2 ^ 32) (hn : n ≤ 32) :
    rotr32 (rotl32 v n) n = v := by
  unfold rotr32 rotl32
  have hp : 0 < 2 ^ n := by positivity
  have h2 : v / 2 ^ (32 - n) < 2 ^ n := by
    rw [Nat.div_lt_iff_lt_mul (by positivity), two_pow_split n hn]
    exact hv
  have e1 : (v % 2 ^ (32 - n) * 2 ^ n + v / 2 ^ (32 - n)) / 2 ^ n = v % 2 ^ (32 - n) := by
    rw [Nat.add_comm, Nat.add_mul_div_right _ _ hp, Nat.div_eq_of_lt h2, Nat.zero_add]
  have e2 : (v % 2 ^ (32 - n) * 2 ^ n + v / 2 ^ (32 - n)) % 2 ^ n = v / 2 ^ (32 - n) := by
    rw [Nat.add_comm, Nat.add_mul_mod_self_right, Nat.mod_eq_of_lt h2]
  rw [e1, e2, Nat.mul_comm]
  exact Nat.mod_add_div v (2 ^ (32 - n))

theorem rotl32_rotr32 (v n : Nat) (hv : v < 2 ^ 32) (hn : n ≤ 32) :
    rotl32 (rotr32 v n) n = v := by
  unfold rotr32 rotl32
  have hp : 0 < 2 ^ (32 - n) := by positivity
  have h2 : v / 2 ^ n < 2 ^ (32 - n) := by
    rw [Nat.div_lt_iff_lt_mul (by positivity), Nat.mul_comm, two_pow_split n hn]
    exact hv
  have e1 : (v / 2 ^ n + v % 2 ^ n * 2 ^ (32 - n)) / 2 ^ (32 - n) = v % 2 ^ n := by
    rw [Nat.add_mul_div_right _ _ hp, Nat.div_eq_of_lt h2, Nat.zero_add]
  have e2 : (v / 2 ^ n + v % 2 ^ n * 2 ^ (32 - n)) % 2 ^ (32 - n) = v / 2 ^ n := by
    rw [Nat.add_mul_mod_self_right, Nat.mod_eq_of_lt h2]
  rw [e1, e2, Nat.mul_comm, Nat.add_comm]
  exact Nat.mod_add_div v (2 ^ n)

theorem sub32_lt (v w : Nat) : sub32 v w < 2 ^ 32 := Nat.mod_lt _ (by decide)

theorem sub32_add32 (v w : Nat) (hv : v < 2 ^ 32) : sub32 (add32 v w) w = v := by
  unfold sub32 add32
  have p32 : (2 : Nat) ^ 32 = 4294967296 := by norm_num
  simp only [p32] at hv ⊢
  omega

theorem add32_sub32 (v w : Nat) (hv : v < 2 ^ 32) : add32 (sub32 v w) w = v := by
  unfold sub32 add32
  have p32 : (2 : Nat) ^ 32 = 4294967296 := by norm_num
  simp only [p32] at hv ⊢
  omega

theorem xor_cancel (v w : Nat) : (v ^^^ w) ^^^ w = v := by
  rw [Nat.xor_assoc, Nat.xor_self, Nat.xor_zero]

/-- The inverse quarter round undoes a quarter round given by its eight
intermediate values. -/
theorem invQuarterRound_core (a b c d a1 d1 c1 b1 a2 d2 c2 b2 : Nat)
    (ha : a < 2 ^ 32) (hb : b < 2 ^ 32) (hc : c < 2 ^ 32) (hd : d < 2 ^ 32)
    (e1 : a1 = add32 a b) (e2 : d1 = rotl32 (d ^^^ a1) 16)
    (e3 : c1 = add32 c d1) (e4 : b1 = rotl32 (b ^^^ c1) 12)
    (e5 : a2 = add32 a1 b1) (e6 : d2 = rotl32 (d1 ^^^ a2) 8)
    (e7 : c2 = add32 c1 d2) (e8 : b2 = rotl32 (b1 ^^^ c2) 7) :
    invQuarterRound (a2, b2, c2, d2) = (a, b, c, d) := by
  have la1 : a1 < 2 ^ 32 := e1 ▸ add32_lt a b
  have ld1 : d1 < 2 ^ 32 := e2 ▸ rotl32_lt _ 16 (Nat.xor_lt_two_pow hd la1) (by decide)
  have lc1 : c1 < 2 ^ 32 := e3 ▸ add32_lt c d1
  have lb1 : b1 < 2 ^ 32 := e4 ▸ rotl32_lt _ 12 (Nat.xor_lt_two_pow hb lc1) (by decide)
  have la2 : a2 < 2 ^ 32 := e5 ▸ add32_lt a1 b1
  have lc2 : c2 < 2 ^ 32 := e7 ▸ add32_lt c1 d2
  have f1 : rotr32 b2 7 ^^^ c2 = b1 := by
    rw [e8, rotr32_rotl32 _ 7 (Nat.xor_lt_two_pow lb1 lc2) (by decide), xor_cancel]
  have f2 : sub32 c2 d2 = c1 := by rw [e7, sub32_add32 _ _ lc1]
  have f3 : rotr32 d2 8 ^^^ a2 = d1 := by
    rw [e6, rotr32_rotl32 _ 8 (Nat.xor_lt_two_pow ld1 la2) (by decide), xor_cancel]
  have f4 : sub32 a2 b1 = a1 := by rw [e5, sub32_add32 _ _ la1]
  have f5 : rotr32 b1 12 ^^^ c1 = b := by
    rw [e4, rotr32_rotl32 _ 12 (Nat.xor_lt_two_pow hb lc1) (by decide), xor_cancel]
  have f6 : sub32 c1 d1 = c := by rw [e3, sub32_add32 _ _ hc]
  have f7 : rotr32 d1 16 ^^^ a1 = d := by
    rw [e2, rotr32_rotl32 _ 16 (Nat.xor_lt_two_pow hd la1) (by decide), xor_cancel]
  have f8 : sub32 a1 b = a := by rw [e1, sub32_add32 _ _ ha]
  simp only [invQuarterRound, f1, f2, f3, f4, f5, f6, f7, f8]

theorem invQuarterRound_quarterRound (a b c d : Nat)
    (ha : a < 2 ^ 32) (hb : b < 2 ^ 32) (hc : c < 2 ^ 32) (hd : d < 2 ^ 32) :
    invQuarterRound (quarterRound (a, b, c, d)) = (a, b, c, d) :=
  invQuarterRound_core a b c d _ _ _ _ _ _ _ _ ha hb hc hd rfl rfl rfl rfl rfl rfl rfl rfl

/-- The quarter round undoes an inverse quarter round given by its eight
intermediate values. -/
theorem quarterRound_core (a b c d b1 c1 d1 a1 b0 c0 d0 a0 : Nat)
    (ha : a < 2 ^ 32) (hb : b < 2 ^ 32) (hc : c < 2 ^ 32) (hd : d < 2 ^ 32)
    (e1 : b1 = rotr32 b 7 ^^^ c) (e2 : c1 = sub32 c d)
    (e3 : d1 = rotr32 d 8 ^^^ a) (e4 : a1 = sub32 a b1)
    (e5 : b0 = rotr32 b1 12 ^^^ c1) (e6 : c0 = sub32 c1 d1)
    (e7 : d0 = rotr32 d1 16 ^^^ a1) (e8 : a0 = sub32 a1 b0) :
    quarterRound (a0, b0, c0, d0) = (a, b, c, d) ∧
      a0 < 2 ^ 32 ∧ b0 < 2 ^ 32 ∧ c0 < 2 ^ 32 ∧ d0 < 2 ^ 32 := by
  have lb1 : b1 < 2 ^ 32 := e1 ▸ Nat.xor_lt_two_pow (rotr32_lt _ 7 hb (by decide)) hc
  have lc1 : c1 < 2 ^ 32 := e2 ▸ sub32_lt c d
  have ld1 : d1 < 2 ^ 32 := e3 ▸ Nat.xor_lt_two_pow (rotr32_lt _ 8 hd (by decide)) ha
  have la1 : a1 < 2 ^ 32 := e4 ▸ sub32_lt a b1
  have lb0 : b0 < 2 ^ 32 := e5 ▸ Nat.xor_lt_two_pow (rotr32_lt _ 12 lb1 (by decide)) lc1
  have lc0 : c0 < 2 ^ 32 := e6 ▸ sub32_lt c1 d1
  have ld0 : d0 < 2 ^ 32 := e7 ▸ Nat.xor_lt_two_pow (rotr32_lt _ 16 ld1 (by decide)) la1
  have la0 : a0 < 2 ^ 32 := e8 ▸ sub32_lt a1 b0
  have f1 : add32 a0 b0 = a1 := by rw [e8, add32_sub32 _ _ la1]
  have f2 : rotl32 (d0 ^^^ a1) 16 = d1 := by
    rw [e7, xor_cancel, rotl32_rotr32 _ 16 ld1 (by decide)]
  have f3 : add32 c0 d1 = c1 := by rw [e6, add32_sub32 _ _ lc1]
  have f4 : rotl32 (b0 ^^^ c1) 12 = b1 := by
    rw [e5, xor_cancel, rotl32_rotr32 _ 12 lb1 (by decide)]
  have f5 : add32 a1 b1 = a := by rw [e4, add32_sub32 _ _ ha]
  have f6 : rotl32 (d1 ^^^ a) 8 = d := by
    rw [e3, xor_cancel, rotl32_rotr32 _ 8 hd (by decide)]
  have f7 : add32 c1 d = c := by rw [e2, add32_sub32 _ _ hc]
  have f8 : rotl32 (b1 ^^^ c) 7 = b := by
    rw [e1, xor_cancel, rotl32_rotr32 _ 7 hb (by decide)]
  refine ⟨?_, la0, lb0, lc0, ld0⟩
  simp only [quarterRound, f1, f2, f3, f4, f5, f6, f7, f8]

theorem quarterRound_invQuarterRound (a b c d : Nat)
    (ha : a < 2 ^ 32) (hb : b < 2 ^ 32) (hc : c < 2 ^ 32) (hd : d < 2 ^ 32) :
    quarterRound (invQuarterRound (a, b, c, d)) = (a, b, c, d) :=
  (quarterRound_core a b c d _ _ _ _ _ _ _ _ ha hb hc hd rfl rfl rfl rfl rfl rfl rfl rfl).1

theorem invQuarterRound_lt (a b c d : Nat)
    (ha : a < 2 ^ 32) (hb : b < 2 ^ 32) (hc : c < 2 ^ 32) (hd : d < 2 ^ 32) :
    (invQuarterRound (a, b, c, d)).1 < 2 ^ 32 ∧ (invQuarterRound (a, b, c, d)).2.1 < 2 ^ 32 ∧
    (invQuarterRound (a, b, c, d)).2.2.1 < 2 ^ 32 ∧
    (invQuarterRound (a, b, c, d)).2.2.2 < 2 ^ 32 :=
  (quarterRound_core a b c d _ _ _ _ _ _ _ _ ha hb hc hd rfl rfl rfl rfl rfl rfl rfl rfl).2

theorem QUARTERROUND_values_eq (a b c d : Nat) (hb : b < 2 ^ 32) (hd : d < 2 ^ 32) :
    QUARTERROUND_values a b c d = quarterRound (a, b, c, d) := by
  have h1 := PLUS_lt a b
  have e1 := ROTATE_eq_rotl32 _ 16 (XOR_lt hd h1) (by decide)
  have l1 := ROTATE_lt (XOR_lt hd h1) (show 16 ≤ 32 by decide)
  have h2 := PLUS_lt c (ROTATE (XOR d (PLUS a b)) 16)
  have e2 := ROTATE_eq_rotl32 _ 12 (XOR_lt hb h2) (by decide)
  have l2 := ROTATE_lt (XOR_lt hb h2) (show 12 ≤ 32 by decide)
  have h3 := PLUS_lt (PLUS a b) (ROTATE (XOR b (PLUS c (ROTATE (XOR d (PLUS a b)) 16))) 12)
  have e3 := ROTATE_eq_rotl32 _ 8 (XOR_lt l1 h3) (by decide)
  have h4 := PLUS_lt (PLUS c (ROTATE (XOR d (PLUS a b)) 16))
    (ROTATE (XOR (ROTATE (XOR d (PLUS a b)) 16)
      (PLUS (PLUS a b) (ROTATE (XOR b (PLUS c (ROTATE (XOR d (PLUS a b)) 16))) 12))) 8)
  have e4 := ROTATE_eq_rotl32 _ 7 (XOR_lt l2 h4) (by decide)
  simp only [QUARTERROUND_values]
  simp only [e1] at e2 e3 e4 ⊢
  simp only [e2] at e3 e4 ⊢
  simp only [e3] at e4 ⊢
  simp only [e4]
  simp only [quarterRound, PLUS, XOR, add32]

theorem Words_invQuarterRoundAt (a b c d : Fin 16) (w : Fin 16 → Nat) (hw : Words w) :
    Words (invQuarterRoundAt a b c d w) := by
  intro i
  obtain ⟨h1, h2, h3, h4⟩ := invQuarterRound_lt (w a) (w b) (w c) (w d) (hw a) (hw b) (hw c)
    (hw d)
  simp only [invQuarterRoundAt]
  split_ifs
  · exact h1
  · exact h2
  · exact h3
  · exact h4
  · exact hw i

theorem invQuarterRoundAt_quarterRoundAt (a b c d : Fin 16) (w : Fin 16 → Nat) (hw : Words w)
    (hab : a ≠ b) (hac : a ≠ c) (had : a ≠ d) (hbc : b ≠ c) (hbd : b ≠ d) (hcd : c ≠ d) :
    invQuarterRoundAt a b c d (quarterRoundAt a b c d w) = w := by
  have e := invQuarterRound_quarterRound (w a) (w b) (w c) (w d) (hw a) (hw b) (hw c) (hw d)
  funext i
  simp only [invQuarterRoundAt, quarterRoundAt, if_true, Ne.symm hab, Ne.symm hac,
    Ne.symm had, Ne.symm hbc, Ne.symm hbd, Ne.symm hcd, if_false, Prod.mk.eta, e]
  split_ifs with h1 h2 h3 h4
  · rw [h1]
  · rw [h2]
  · rw [h3]
  · rw [h4]
  · rfl

theorem quarterRoundAt_invQuarterRoundAt (a b c d : Fin 16) (w : Fin 16 → Nat) (hw : Words w)
    (hab : a ≠ b) (hac : a ≠ c) (had : a ≠ d) (hbc : b ≠ c) (hbd : b ≠ d) (hcd : c ≠ d) :
    quarterRoundAt a b c d (invQuarterRoundAt a b c d w) = w := by
  have e := quarterRound_invQuarterRound (w a) (w b) (w c) (w d) (hw a) (hw b) (hw c) (hw d)
  funext i
  simp only [invQuarterRoundAt, quarterRoundAt, if_true, Ne.symm hab, Ne.symm hac,
    Ne.symm had, Ne.symm hbc, Ne.symm hbd, Ne.symm hcd, if_false, Prod.mk.eta, e]
  split_ifs with h1 h2 h3 h4
  · rw [h1]
  · rw [h2]
  · rw [h3]
  · rw [h4]
  · rfl

theorem Words_invColumnPass (w : Fin 16 → Nat) (hw : Words w) : Words (invColumnPass w) :=
  Words_invQuarterRoundAt _ _ _ _ _ (Words_invQuarterRoundAt _ _ _ _ _
    (Words_invQuarterRoundAt _ _ _ _ _ (Words_invQuarterRoundAt _ _ _ _ _ hw)))

theorem Words_invDiagonalPass (w : Fin 16 → Nat) (hw : Words w) : Words (invDiagonalPass w) :=
  Words_invQuarterRoundAt _ _ _ _ _ (Words_invQuarterRoundAt _ _ _ _ _
    (Words_invQuarterRoundAt _ _ _ _ _ (Words_invQuarterRoundAt _ _ _ _ _ hw)))

theorem Words_invDoubleRound (w : Fin 16 → Nat) (hw : Words w) : Words (invDoubleRound w) :=
  Words_invColumnPass _ (Words_invDiagonalPass _ hw)

theorem invColumnPass_columnPass (w : Fin 16 → Nat) (hw : Words w) :
    invColumnPass (columnPass w) = w := by
  have w1 := Words_quarterRoundAt 0 4 8 12 w hw
  have w2 := Words_quarterRoundAt 1 5 9 13 _ w1
  have w3 := Words_quarterRoundAt 2 6 10 14 _ w2
  unfold invColumnPass columnPass
  rw [invQuarterRoundAt_quarterRoundAt 3 7 11 15 _ w3 (by decide) (by decide) (by decide)
      (by decide) (by decide) (by decide),
    invQuarterRoundAt_quarterRoundAt 2 6 10 14 _ w2 (by decide) (by decide) (by decide)
      (by decide) (by decide) (by decide),
    invQuarterRoundAt_quarterRoundAt 1 5 9 13 _ w1 (by decide) (by decide) (by decide)
      (by decide) (by decide) (by decide),
    invQuarterRoundAt_quarterRoundAt 0 4 8 12 _ hw (by decide) (by decide) (by decide)
      (by decide) (by decide) (by decide)]

theorem columnPass_invColumnPass (w : Fin 16 → Nat) (hw : Words w) :
    columnPass (invColumnPass w) = w := by
  have w1 := Words_invQuarterRoundAt 3 7 11 15 w hw
  have w2 := Words_invQuarterRoundAt 2 6 10 14 _ w1
  have w3 := Words_invQuarterRoundAt 1 5 9 13 _ w2
  unfold invColumnPass columnPass
  rw [quarterRoundAt_invQuarterRoundAt 0 4 8 12 _ w3 (by decide) (by decide) (by decide)
      (by decide) (by decide) (by decide),
    quarterRoundAt_invQuarterRoundAt 1 5 9 13 _ w2 (by decide) (by decide) (by decide)
      (by decide) (by decide) (by decide),
    quarterRoundAt_invQuarterRoundAt 2 6 10 14 _ w1 (by decide) (by decide) (by decide)
      (by decide) (by decide) (by decide),
    quarterRoundAt_invQuarterRoundAt 3 7 11 15 _ hw (by decide) (by decide) (by decide)
      (by decide) (by decide) (by decide)]

theorem invDiagonalPass_diagonalPass (w : Fin 16 → Nat) (hw : Words w) :
    invDiagonalPass (diagonalPass w) = w := by
  have w1 := Words_quarterRoundAt 0 5 10 15 w hw
  have w2 := Words_quarterRoundAt 1 6 11 12 _ w1
  have w3 := Words_quarterRoundAt 2 7 8 13 _ w2
  unfold invDiagonalPass diagonalPass
  rw [invQuarterRoundAt_quarterRoundAt 3 4 9 14 _ w3 (by decide) (by decide) (by decide)
      (by decide) (by decide) (by decide),
    invQuarterRoundAt_quarterRoundAt 2 7 8 13 _ w2 (by decide) (by decide) (by decide)
      (by decide) (by decide) (by decide),
    invQuarterRoundAt_quarterRoundAt 1 6 11 12 _ w1 (by decide) (by decide) (by decide)
      (by decide) (by decide) (by decide),
    invQuarterRoundAt_quarterRoundAt 0 5 10 15 _ hw (by decide) (by decide) (by decide)
      (by decide) (by decide) (by decide)]

theorem diagonalPass_invDiagonalPass (w : Fin 16 → Nat) (hw : Words w) :
    diagonalPass (invDiagonalPass w) = w := by
  have w1 := Words_invQuarterRoundAt 3 4 9 14 w hw
  have w2 := Words_invQuarterRoundAt 2 7 8 13 _ w1
  have w3 := Words_invQuarterRoundAt 1 6 11 12 _ w2
  unfold invDiagonalPass diagonalPass
  rw [quarterRoundAt_invQuarterRoundAt 0 5 10 15 _ w3 (by decide) (by decide) (by decide)
      (by decide) (by decide) (by decide),
    quarterRoundAt_invQuarterRoundAt 1 6 11 12 _ w2 (by decide) (by decide) (by decide)
      (by decide) (by decide) (by decide),
    quarterRoundAt_invQuarterRoundAt 2 7 8 13 _ w1 (by decide) (by decide) (by decide)
      (by decide) (by decide) (by decide),
    quarterRoundAt_invQuarterRoundAt 3 4 9 14 _ hw (by decide) (by decide) (by decide)
      (by decide) (by decide) (by decide)]

theorem invDoubleRound_doubleRound (w : Fin 16 → Nat) (hw : Words w) :
    invDoubleRound (doubleRound w) = w := by
  unfold invDoubleRound doubleRound
  rw [invDiagonalPass_diagonalPass _ (Words_columnPass w hw), invColumnPass_columnPass w hw]

theorem doubleRound_invDoubleRound (w : Fin 16 → Nat) (hw : Words w) :
    doubleRound (invDoubleRound w) = w := by
  unfold invDoubleRound doubleRound
  rw [columnPass_invColumnPass _ (Words_invDiagonalPass w hw), diagonalPass_invDiagonalPass w hw]

theorem Words_iterate_invDoubleRound (k : Nat) (w : Fin 16 → Nat) (hw : Words w) :
    Words (invDoubleRound^[k] w) := by
  induction k generalizing w with
  | zero => exact hw
  | succ k ih => rw [Function.iterate_succ_apply]; exact ih _ (Words_invDoubleRound _ hw)

theorem invDoubleRound_iterate_doubleRound (k : Nat) (w : Fin 16 → Nat) (hw : Words w) :
    invDoubleRound^[k] (doubleRound^[k] w) = w := by
  induction k generalizing w with
  | zero => rfl
  | succ k ih =>
    rw [Function.iterate_succ_apply invDoubleRound, Function.iterate_succ_apply' doubleRound,
      invDoubleRound_doubleRound _ (Words_iterate_doubleRound k w hw), ih w hw]

theorem doubleRound_iterate_invDoubleRound (k : Nat) (w : Fin 16 → Nat) (hw : Words w) :
    doubleRound^[k] (invDoubleRound^[k] w) = w := by
  induction k generalizing w with
  | zero => rfl
  | succ k ih =>
    rw [Function.iterate_succ_apply doubleRound, Function.iterate_succ_apply' invDoubleRound,
      doubleRound_invDoubleRound _ (Words_iterate_invDoubleRound k w hw), ih w hw]

/-- On arrays of 32-bit words the round loop of `doublerounds` is the double
round of the specification iterated `⌈R / 2⌉` times. -/
theorem roundsLoop_eq_iterate_doubleRound (R : Nat) (x : Fin 16 → Nat) (hx : Words x) :
    roundsLoop R (R : Int) x = doubleRound^[(R + 1) / 2] x := by
  rw [roundsLoop_fuel R R x (by omega), roundsBody_iterate_eq _ x hx]

/-- C16: the quarter round is a bijection on 4-tuples of 32-bit words:
`invQuarterRound`, which undoes the four steps in reverse order with right
rotation, XOR and subtraction modulo `2^32`, is a two-sided inverse of what the
macro `QUARTERROUND` computes from four words, and both map words to words;
hence, for every rounds value `R`, the round loop of `doublerounds` (before the
feed-forward) is a permutation of the set of 16-word states, undone by the
inverse double round iterated as many times. -/
theorem quarterRound_bijection (a b c d : Nat)
    (ha : a < 2 ^ 32) (hb : b < 2 ^ 32) (hc : c < 2 ^ 32) (hd : d < 2 ^ 32) (R : Nat) :
    invQuarterRound (QUARTERROUND_values a b c d) = (a, b, c, d) ∧
    QUARTERROUND_values (invQuarterRound (a, b, c, d)).1 (invQuarterRound (a, b, c, d)).2.1
      (invQuarterRound (a, b, c, d)).2.2.1 (invQuarterRound (a, b, c, d)).2.2.2 = (a, b, c, d) ∧
    ((QUARTERROUND_values a b c d).1 < 2 ^ 32 ∧ (QUARTERROUND_values a b c d).2.1 < 2 ^ 32 ∧
      (QUARTERROUND_values a b c d).2.2.1 < 2 ^ 32 ∧
      (QUARTERROUND_values a b c d).2.2.2 < 2 ^ 32) ∧
    ((invQuarterRound (a, b, c, d)).1 < 2 ^ 32 ∧ (invQuarterRound (a, b, c, d)).2.1 < 2 ^ 32 ∧
      (invQuarterRound (a, b, c, d)).2.2.1 < 2 ^ 32 ∧
      (invQuarterRound (a, b, c, d)).2.2.2 < 2 ^ 32) ∧
    Set.BijOn (fun x => roundsLoop R (R : Int) x) {x | Words x} {x | Words x} ∧
    (∀ x, Words x → invDoubleRound^[(R + 1) / 2] (roundsLoop R (R : Int) x) = x) ∧
    (∀ x, Words x → roundsLoop R (R : Int) (invDoubleRound^[(R + 1) / 2] x) = x) := by
  obtain ⟨i1, i2, i3, i4⟩ := invQuarterRound_lt a b c d ha hb hc hd
  refine ⟨?_, ?_, ?_, ⟨i1, i2, i3, i4⟩, ?_, ?_, ?_⟩
  · rw [QUARTERROUND_values_eq a b c d hb hd]
    exact invQuarterRound_quarterRound a b c d ha hb hc hd
  · rw [QUARTERROUND_values_eq _ _ _ _ i2 i4]
    exact quarterRound_invQuarterRound a b c d ha hb hc hd
  · rw [QUARTERROUND_values_eq a b c d hb hd]
    exact quarterRound_lt a b c d hb hd
  · have hb : Set.BijOn (doubleRound^[(R + 1) / 2]) {x | Words x} {x | Words x} := by
      have inv : Set.InvOn (invDoubleRound^[(R + 1) / 2]) (doubleRound^[(R + 1) / 2])
          {x | Words x} {x | Words x} :=
        ⟨fun x hx => invDoubleRound_iterate_doubleRound _ x hx,
          fun x hx => doubleRound_iterate_invDoubleRound _ x hx⟩
      exact inv.bijOn (fun x hx => Words_iterate_doubleRound _ x hx)
        (fun x hx => Words_iterate_invDoubleRound _ x hx)
    exact hb.congr (fun x hx => (roundsLoop_eq_iterate_doubleRound R x hx).symm)
  · intro x hx
    rw [roundsLoop_eq_iterate_doubleRound R x hx]
    exact invDoubleRound_iterate_doubleRound _ x hx
  · intro x hx
    rw [roundsLoop_eq_iterate_doubleRound R _ (Words_iterate_invDoubleRound _ x hx)]
    exact doubleRound_iterate_invDoubleRound _ x hx

theorem quarterRound_bijection_witness :
    invQuarterRound (QUARTERROUND_values 0x11111111 0x01020304 0x9b8d6f43 0x01234567) =
      (0x11111111, 0x01020304, 0x9b8d6f43, 0x01234567) :=
  (quarterRound_bijection 0x11111111 0x01020304 0x9b8d6f43 0x01234567 (by norm_num)
    (by norm_num) (by norm_num) (by norm_num) 20).1

end ChaCha
